import Mathlib

/-!
A verification development for the `sync-10000` tool (`src/main.rs`): a
dry-run directory synchronisation planner.  The tool builds a content-addressed
tree model of a reference directory (`map_directory`), persists it
(`save_state`), and later diffs a freshly walked target directory against the
persisted model (`sync_directory`), printing an ordered list of
`create`/`copy`/`delete` operations.

The embedding below follows the Rust source function by function.  Filesystem
effects are passed in explicitly: the directory walk is a list of
`Result<DirEntry>` items, content hashing is an oracle from paths to
`Result<String>`, and the live existence check used by the reconciler is a
boolean oracle on relative paths.  Machine maps (`HashMap`) are association
lists; where the target map is iterated, the list order stands for the hash
map's unspecified iteration order.  Rust `panic!`/`unwrap` failures are
modelled as an explicit outcome (`Option.none` or `BuildResult.panic`).
-/

set_option autoImplicit false

namespace S10

/-- A relative path, as the list of its forward-slash separated segments.
The tree root (the empty-string key of the source) is `[]`. -/
abbrev Path := List String

/-- Rendering of a relative path the way the source prints it
(`Path::display`): segments joined with forward slashes; the root renders as
the empty string. -/
def pathStr (p : Path) : String := String.intercalate "/" p

/-- One directory entry (`struct Record`): a base name and an optional content
hash; `none` marks a directory, `some h` a regular file (the hash field is the
sole type discriminator). -/
structure Record where
  name : String
  hash : Option String
deriving DecidableEq, Repr

/-- One planned operation as emitted by `sync_directory`.  The source pushes
already-rendered strings; we keep the operation kind and path and render with
`renderOp`. -/
inductive Op where
  | create (p : Path)
  | copy (p : Path)
  | del (p : Path)
deriving DecidableEq, Repr

/-- The path an operation is about. -/
def pathOf : Op → Path
  | .create p => p
  | .copy p => p
  | .del p => p

/-- The exact line the source writes for an operation
(`format!("create \x60\x7b\x7d\x60", ...)` and friends). -/
def renderOp : Op → String
  | .create p => "create `" ++ pathStr p ++ "`"
  | .copy p => "copy `" ++ pathStr p ++ "`"
  | .del p => "delete `" ++ pathStr p ++ "`"

/-- The Tree Model, the source's `HashMap<String, Vec<Record>>`, embedded as an
association list from relative directory path to child records.  The reference
map is only ever read through key lookup; for the target map the list order
stands for the hash map's unspecified iteration order. -/
abbrev Tree := List (Path × List Record)

/-- `HashMap::get`: the value of the first binding with the given key. -/
def lookupA (l : Tree) (k : Path) : Option (List Record) :=
  match l with
  | [] => none
  | (k', v) :: rest => if k' = k then some v else lookupA rest k

/-- `HashMap::insert`: replace the value of the first binding with the key, or
append a fresh binding. -/
def insertA (l : Tree) (k : Path) (v : List Record) : Tree :=
  match l with
  | [] => [(k, v)]
  | (k', v') :: rest => if k' = k then (k, v) :: rest else (k', v') :: insertA rest k v

/-- `records.get_mut(k).unwrap().push(r)`: append `r` to the child list of the
first binding with key `k`; `none` models the `unwrap` panic when the key is
absent. -/
def pushRec (l : Tree) (k : Path) (r : Record) : Option Tree :=
  match l with
  | [] => none
  | (k', v') :: rest =>
    if k' = k then some ((k', v' ++ [r]) :: rest)
    else (pushRec rest k r).map (fun t => (k', v') :: t)

/-! ## Tree Builder (`map_directory`, lines 32-75) -/

/-- One filesystem entry yielded by the walk (`walkdir::DirEntry`), with the
relative parent path precomputed (the source's
`path.parent().unwrap().strip_prefix(base)`), the base name
(`entry.file_name()`), whether the entry is a directory, and the full path
string that content hashing is keyed by (`entry.path()`). -/
structure WalkEntry where
  name : String
  parent : Path
  isDir : Bool
  fullPath : String
deriving DecidableEq, Repr

/-- Outcome of `map_directory`: a tree, a propagated I/O error (the `?` on a
walk item), or abnormal termination through an `unwrap` panic. -/
inductive BuildResult where
  | ok (tree : Tree)
  | ioError (e : String)
  | panic
deriving DecidableEq, Repr

/-- State of the `for entry in WalkDir::new(..).into_iter().skip(1)` loop:
the `records` map and the deferred `files` triples
`(relative_parent, name, path)`. -/
inductive TravState where
  | normal (records : Tree) (files : List (Path × String × String))
  | ioFail (e : String)
  | panicked

/-- One iteration of the traversal loop (lines 37-56): a walk error propagates
(`let entry = entry?`); a directory entry registers its own empty child list
and then pushes a hashless record onto its parent's list (the
`get_mut(..).unwrap()` panics when the parent has no binding); a file entry is
deferred for hashing. -/
def travStep (st : TravState) (item : Except String WalkEntry) : TravState :=
  match st with
  | .normal records files =>
    match item with
    | .error e => .ioFail e
    | .ok entry =>
      if entry.isDir then
        match pushRec (insertA records (entry.parent ++ [entry.name]) [])
            entry.parent ⟨entry.name, none⟩ with
        | none => .panicked
        | some records' => .normal records' files
      else
        .normal records (files ++ [(entry.parent, entry.name, entry.fullPath)])
  | st => st

/-- The parallel hashing step (lines 59-68): every deferred file is hashed
through `calculate_hash`; the source `unwrap`s the per-file result inside the
rayon map, so any hashing error is a panic (`none`), not an `Err`. -/
def hashFiles (hashFn : String → Except String String) :
    List (Path × String × String) → Option (List (Path × Record))
  | [] => some []
  | (parent, nm, fp) :: rest =>
    match hashFn fp with
    | .error _ => none
    | .ok h => (hashFiles hashFn rest).map (fun l => (parent, ⟨nm, some h⟩) :: l)

/-- `map_directory` (lines 32-75).  The walk argument is the list of `Result`
items `WalkDir` yields; its first item is the root entry itself (or the error
for an unreadable/missing root), which `.skip(1)` drops unconditionally.
`hashFn` stands for `calculate_hash`, keyed by the full path of the file; the
hashing loop is modelled sequentially, faithfully to the phase structure of
the source (all hashes are computed before any file record is inserted, and
the final insertion's `get_mut(..).unwrap()` may panic). -/
def map_directory (walk : List (Except String WalkEntry))
    (hashFn : String → Except String String) : BuildResult :=
  match (walk.drop 1).foldl travStep (.normal [([], [])] []) with
  | .ioFail e => .ioError e
  | .panicked => .panic
  | .normal records files =>
    match hashFiles hashFn files with
    | none => .panic
    | some frs =>
      match frs.foldlM (fun recs fr => pushRec recs fr.1 fr.2) records with
      | none => .panic
      | some records2 => .ok records2

/-! ## Reconciler (`sync_directory`, lines 95-161, and `copy_record`) -/

/-- The per-target-record decision (lines 129-149) once the parent was found in
the reference with child list `refRs`: find the reference child of the same
name; a type clash emits a delete, matching directories emit nothing, files
with differing hashes emit a copy, and a missing name emits a delete. -/
def perRecordOp (refRs : List Record) (rp : Path) (tr : Record) : List Op :=
  match refRs.find? (fun r => r.name == tr.name) with
  | some r =>
    if tr.hash.isNone != r.hash.isNone then [.del (rp ++ [tr.name])]
    else if tr.hash.isNone then []
    else if tr.hash ≠ r.hash then [.copy (rp ++ [tr.name])]
    else []
  | none => [.del (rp ++ [tr.name])]

/-- The inner loop of `copy_record`, abstracted over the recursive call: the
expansions of a child list are computed left to right and concatenated. -/
def copyListWith (f : Record → Path → Option (List Op)) :
    List Record → Path → Option (List Op)
  | [], _ => some []
  | r :: rest, rp =>
    (f r rp).bind fun l => (copyListWith f rest rp).map (fun l2 => l ++ l2)

/-- `copy_record` (lines 163-183): a file record expands to its copy; a
directory record expands to its create followed by the expansions of the
children listed under its path in the reference.  The source recursion is
bounded only by the reference map; here a fuel argument makes it structural.
`none` models the `entries.get(..).unwrap()` panic on a dangling directory
key; with the fuel the callers supply (`entries.length + 1`) fuel can never
run out before some lookup misses (each recursion level consumes a distinct,
strictly longer key), so `none` coincides with the source's panic. -/
def copy_record : Nat → Tree → Record → Path → Option (List Op)
  | 0, _, _, _ => none
  | fuel + 1, entries, r, rp =>
    match r.hash with
    | some _ => some [.copy (rp ++ [r.name])]
    | none =>
      match lookupA entries (rp ++ [r.name]) with
      | none => none
      | some children =>
        (copyListWith (fun c q => copy_record fuel entries c q) children
            (rp ++ [r.name])).map
          (fun l => .create (rp ++ [r.name]) :: l)

/-- The child-list expansion at a fixed fuel. -/
def copyList (fuel : Nat) (entries : Tree) : List Record → Path → Option (List Op) :=
  copyListWith (fun c q => copy_record fuel entries c q)

/-- The once-per-parent expansion (lines 115-127): walk the reference child
list of `rp` in order and, for every child whose joined path does not exist on
disk under the target root, append the reverse of its `copy_record` expansion. -/
def expandMissing (entries : Tree) (fsEx : Path → Bool) (rp : Path) :
    List Record → Option (List Op)
  | [] => some []
  | r :: rest =>
    if fsEx (rp ++ [r.name]) then expandMissing entries fsEx rp rest
    else
      (copy_record (entries.length + 1) entries r rp).bind fun l =>
        (expandMissing entries fsEx rp rest).map (fun l2 => l.reverse ++ l2)

/-- The inner `for target_record in records` loop of `sync_directory`
(lines 110-153) for one target binding: `refs` is the (loop-invariant) result
of `entries.get(relative_parent)`, and the boolean is whether
`relative_parent` is in `processed_parents` (it is inserted when the first
record of the binding is processed in the `Some` branch, which is also when
the once-per-parent expansion runs).  Returns the operations pushed by the
loop, in push order, together with the final processed flag. -/
def innerLoop (entries : Tree) (fsEx : Path → Bool) (rp : Path)
    (refs : Option (List Record)) : Bool → List Record → Option (List Op × Bool)
  | done, [] => some ([], done)
  | done, tr :: trs =>
    match refs with
    | none =>
      (innerLoop entries fsEx rp none done trs).map
        (fun x => (Op.del (rp ++ [tr.name]) :: x.1, x.2))
    | some refRs =>
      if done then
        (innerLoop entries fsEx rp (some refRs) true trs).map
          (fun x => (perRecordOp refRs rp tr ++ x.1, x.2))
      else
        (expandMissing entries fsEx rp refRs).bind fun exp =>
          (innerLoop entries fsEx rp (some refRs) true trs).map
            (fun x => (exp ++ perRecordOp refRs rp tr ++ x.1, x.2))

/-- The outer `for (relative_parent, records) in &target_entries` loop
(lines 109-154): the accumulated `operations` vector, in push order.  The
first argument is the current `processed_parents` set; `none` is a panic
escaping from `copy_record`. -/
def syncRun (entries : Tree) (fsEx : Path → Bool) :
    List Path → Tree → Option (List Op)
  | _, [] => some []
  | pr, (rp, rs) :: rest =>
    (innerLoop entries fsEx rp (lookupA entries rp) (decide (rp ∈ pr)) rs).bind
      fun blk =>
        (syncRun entries fsEx (if blk.2 = true ∧ rp ∉ pr then rp :: pr else pr)
            rest).map
          (fun os => blk.1 ++ os)

/-- The emitted operation list: the source prints `operations.iter().rev()`
(lines 156-158), so the observable output is the reverse of the push order. -/
def emittedOps (entries target : Tree) (fsEx : Path → Bool) : Option (List Op) :=
  (syncRun entries fsEx [] target).map List.reverse

/-- `sync_directory`'s observable output: the rendered lines, top to bottom. -/
def sync_directory (entries target : Tree) (fsEx : Path → Bool) :
    Option (List String) :=
  (emittedOps entries target fsEx).map (fun ops => ops.map renderOp)

/-! ## Command surface (`main`, lines 189-250) -/

/-- The matched command-line arguments.  `main` declares exactly the args
`directory`, `sync`, `output` and `reference-state`
(`Arg::with_name(..)`, lines 194-219). -/
structure CmdMatches where
  directory : String
  sync : Bool
  output : Option String
  reference_state : Option String
deriving DecidableEq, Repr

/-- `ArgMatches::value_of`: the value of a declared value-taking argument;
any name that was never declared yields `None` (clap 2 looks the name up in
the matched-argument table, where only declared names ever appear). -/
def value_of (m : CmdMatches) (name : String) : Option String :=
  if name = "directory" then some m.directory
  else if name = "output" then m.output
  else if name = "reference-state" then m.reference_state
  else none

/-- Lines 222-228 of `main`: the state-file path is the default
(`cwd` joined with `state`) unless `matches.value_of("state")` yields a value
— note the source queries the name `state`, not the declared name
`reference-state`. -/
def resolve_state_path (m : CmdMatches) (default_path : String) : String :=
  match value_of m "state" with
  | some v => v
  | none => default_path

/-! ## Snapshot persistence (serialize/deserialize), for the round-trip claim -/

/-- Modelled from the spec: snapshot persistence is "an opaque serialize/
deserialize of the tree model to/from a byte stream", performed in the source
by the external `bincode` crate (`bincode::serialize_into` /
`bincode::deserialize_from`), whose code is not part of this repository.
Following bincode's length-prefixed layout, the byte stream is modelled as a
token stream: a number token for every length or tag prefix, and a string
token standing for one length-prefixed UTF-8 string. -/
inductive Tok where
  | num (n : Nat)
  | str (s : String)
deriving DecidableEq, Repr

/-- Modelled from the spec: encoding of one map key (a relative path), as a
length-prefixed sequence of its segments. -/
def encPath (p : Path) : List Tok := .num p.length :: p.map .str

/-- Modelled from the spec: encoding of one `Record` — its name, then the
`Option` tag (0 absent, 1 present) and hash. -/
def encRecord (r : Record) : List Tok :=
  .str r.name ::
    (match r.hash with
     | none => [.num 0]
     | some h => [.num 1, .str h])

/-- Modelled from the spec: encoding of one child list, length-prefixed. -/
def encChildren (rs : List Record) : List Tok :=
  .num rs.length :: rs.flatMap encRecord

/-- Modelled from the spec: encoding of one map binding. -/
def encBinding (b : Path × List Record) : List Tok := encPath b.1 ++ encChildren b.2

/-- Modelled from the spec: `serialize` of a whole Tree Model
(length-prefixed sequence of bindings). -/
def serialize (t : Tree) : List Tok := .num t.length :: t.flatMap encBinding

/-- Decode a number token, returning the remainder of the stream. -/
def decNum : List Tok → Option (Nat × List Tok)
  | .num n :: rest => some (n, rest)
  | _ => none

/-- Decode a string token, returning the remainder of the stream. -/
def decStr : List Tok → Option (String × List Tok)
  | .str s :: rest => some (s, rest)
  | _ => none

/-- Decode exactly `n` items with the given item decoder. -/
def decCount {α : Type} (dec : List Tok → Option (α × List Tok)) :
    Nat → List Tok → Option (List α × List Tok)
  | 0, l => some ([], l)
  | n + 1, l =>
    (dec l).bind fun x =>
      (decCount dec n x.2).map (fun y => (x.1 :: y.1, y.2))

/-- Decode one path. -/
def decPath (l : List Tok) : Option (Path × List Tok) :=
  (decNum l).bind fun x => decCount decStr x.1 x.2

/-- Decode one record. -/
def decRecord (l : List Tok) : Option (Record × List Tok) :=
  (decStr l).bind fun x =>
    (decNum x.2).bind fun y =>
      if y.1 = 0 then some (⟨x.1, none⟩, y.2)
      else if y.1 = 1 then (decStr y.2).map (fun z => (⟨x.1, some z.1⟩, z.2))
      else none

/-- Decode one binding. -/
def decBinding (l : List Tok) : Option ((Path × List Record) × List Tok) :=
  (decPath l).bind fun p =>
    (decNum p.2).bind fun n =>
      (decCount decRecord n.1 n.2).map (fun rs => ((p.1, rs.1), rs.2))

/-- Modelled from the spec: `deserialize` of a whole Tree Model. -/
def deserialize (l : List Tok) : Option Tree :=
  ((decNum l).bind fun n => decCount decBinding n.1 n.2).map Prod.fst

/-! ## Path ordering -/

/-- `q` lies at or below `p`: the segment list `q` extends `p`. -/
def Under (p q : Path) : Prop := ∃ s, q = p ++ s

/-- `q` lies strictly below `p`. -/
def StrictUnder (p q : Path) : Prop := ∃ s, s ≠ [] ∧ q = p ++ s

/-- Boolean version of `Under`. -/
def underB : Path → Path → Bool
  | [], _ => true
  | _ :: _, [] => false
  | a :: p, b :: q => a == b && underB p q

/-- All the ancestors of a path, the path itself and the root included. -/
def prefixesOf : Path → List Path
  | [] => [[]]
  | a :: rest => [] :: (prefixesOf rest).map (fun t => a :: t)

/-- Existence on disk of a path together with all its ancestors: the
well-formedness a live filesystem walk guarantees for every path it yields. -/
def ancClosedOn (fsEx : Path → Bool) (p : Path) : Bool := (prefixesOf p).all fsEx

/-- Every occurrence of `a` lies strictly before every occurrence of `b`. -/
def Precedes (a b : Op) (l : List Op) : Prop :=
  ∀ l1 l2, l = l1 ++ a :: l2 → b ∉ l1

/-- The nested-delete ordering of the spec's global ordering guarantee: in the
emitted list, the delete of a strict descendant always comes before the delete
of the ancestor. -/
def DeleteOrderOK (l : List Op) : Prop :=
  ∀ p q, StrictUnder p q → ∀ l1 l2, l = l1 ++ Op.del p :: l2 → Op.del q ∉ l2

/-- Whether `sync_directory` emits `delete` for the joined path
`rp ++ [tr.name] = p` when processing target record `tr` under parent `rp`:
either the parent is absent from the reference, or the reference child of the
same name is absent or of mismatched type. -/
def delHere (e : Tree) (rp : Path) (tr : Record) (p : Path) : Bool :=
  decide (rp ++ [tr.name] = p) &&
    (match lookupA e rp with
     | none => true
     | some refRs =>
       match refRs.find? (fun r => r.name == tr.name) with
       | none => true
       | some r => tr.hash.isNone != r.hash.isNone)

/-- How many deletes for the path `p` one run over `tgt` pushes. -/
def delCount (e : Tree) (p : Path) (tgt : Tree) : Nat :=
  tgt.foldr (fun b acc => b.2.countP (fun tr => delHere e b.1 tr p) + acc) 0

/-- Well-parentedness of a walk fragment: every directory entry's parent is the
root or a directory already seen (`seen` holds the relative self paths of the
directories seen so far).  A real depth-first walk yields entries in such an
order; file entries are unconstrained because the traversal loop defers them. -/
def dirsParented (seen : List Path) : List WalkEntry → Bool
  | [] => true
  | en :: rest =>
    if en.isDir then
      (decide (en.parent = []) || decide (en.parent ∈ seen)) &&
        dirsParented (seen ++ [en.parent ++ [en.name]]) rest
    else dirsParented seen rest

/-- The spec's Tree Model invariants: the root key is present, and every
directory record's joined path is itself a key. -/
def TreeInv (t : Tree) : Prop :=
  (lookupA t []).isSome = true ∧
  ∀ k vs, lookupA t k = some vs → ∀ r ∈ vs, r.hash = none →
    (lookupA t (k ++ [r.name])).isSome = true

/-! ## Lemmas: paths -/

theorem Under.rfl (p : Path) : Under p p := ⟨[], by simp⟩

theorem StrictUnder.toUnder {p q : Path} (h : StrictUnder p q) : Under p q := by
  obtain ⟨s, _, rfl⟩ := h; exact ⟨s, rfl⟩

theorem Under.length_le {p q : Path} (h : Under p q) : p.length ≤ q.length := by
  obtain ⟨s, rfl⟩ := h; simp

theorem Under.eq_of_length {p q : Path} (h : Under p q)
    (hl : q.length ≤ p.length) : p = q := by
  obtain ⟨s, rfl⟩ := h
  simp at hl
  simp [hl]

theorem Under.trans {p q r : Path} (h1 : Under p q) (h2 : Under q r) : Under p r := by
  obtain ⟨s, rfl⟩ := h1; obtain ⟨t, rfl⟩ := h2; exact ⟨s ++ t, by simp⟩

theorem StrictUnder.length_lt {p q : Path} (h : StrictUnder p q) :
    p.length < q.length := by
  obtain ⟨s, hs, rfl⟩ := h
  have : 0 < s.length := List.length_pos.mpr hs
  simp; omega

theorem under_comparable : ∀ (p q x : Path), Under p x → Under q x →
    Under p q ∨ Under q p := by
  intro p
  induction p with
  | nil => intro q x _ _; exact Or.inl ⟨q, rfl⟩
  | cons a p ih =>
    intro q x h1 h2
    match q with
    | [] => exact Or.inr ⟨a :: p, rfl⟩
    | b :: q' =>
      obtain ⟨s, hs⟩ := h1
      obtain ⟨t, ht⟩ := h2
      match x with
      | [] => simp at hs
      | c :: x' =>
        simp at hs ht
        obtain ⟨rfl, hs⟩ := hs
        obtain ⟨rfl, ht⟩ := ht
        rcases ih q' x' ⟨s, hs⟩ ⟨t, ht⟩ with h | h
        · obtain ⟨u, rfl⟩ := h; exact Or.inl ⟨u, rfl⟩
        · obtain ⟨u, rfl⟩ := h; exact Or.inr ⟨u, rfl⟩

theorem under_of_under_le {p q x : Path} (h1 : Under p x) (h2 : Under q x)
    (hl : p.length ≤ q.length) : Under p q := by
  rcases under_comparable p q x h1 h2 with h | h
  · exact h
  · have := h.eq_of_length hl
    exact this ▸ Under.rfl q

theorem snoc_inj {rp rq : Path} {a b : String}
    (h : rp ++ [a] = rq ++ [b]) : rp = rq ∧ a = b := by
  have h1 := congrArg List.dropLast h
  simp at h1
  subst h1
  have h2 := List.append_cancel_left h
  simp at h2
  exact ⟨rfl, h2⟩

theorem under_snoc_self {rp : Path} {a : String} : Under rp (rp ++ [a]) :=
  ⟨[a], rfl⟩

theorem strictUnder_snoc_self {rp : Path} {a : String} : StrictUnder rp (rp ++ [a]) :=
  ⟨[a], by simp, rfl⟩

theorem not_strictUnder_same_length {p q : Path} (h : p.length = q.length) :
    ¬ StrictUnder p q := fun hs => absurd (hs.length_lt) (by omega)

theorem underB_iff : ∀ (p q : Path), underB p q = true ↔ Under p q := by
  intro p
  induction p with
  | nil => intro q; simp [underB]; exact ⟨q, rfl⟩
  | cons a p ih =>
    intro q
    match q with
    | [] =>
      simp [underB]
      rintro ⟨s, hs⟩
      simp at hs
    | b :: q' =>
      simp [underB, ih q']
      constructor
      · rintro ⟨rfl, s, rfl⟩; exact ⟨s, rfl⟩
      · rintro ⟨s, hs⟩
        simp at hs
        exact ⟨hs.1.symm, s, hs.2⟩

instance (p q : Path) : Decidable (Under p q) :=
  decidable_of_iff _ (underB_iff p q)

theorem strictUnder_iff {p q : Path} : StrictUnder p q ↔ Under p q ∧ p ≠ q := by
  constructor
  · intro h
    refine ⟨h.toUnder, fun he => ?_⟩
    subst he
    exact absurd h.length_lt (by omega)
  · rintro ⟨⟨s, rfl⟩, hne⟩
    refine ⟨s, fun hs => hne (by simp [hs]), rfl⟩

instance (p q : Path) : Decidable (StrictUnder p q) :=
  decidable_of_iff _ strictUnder_iff.symm

theorem mem_prefixesOf : ∀ (p t : Path), t ∈ prefixesOf p ↔ Under t p := by
  intro p
  induction p with
  | nil =>
    intro t
    simp [prefixesOf]
    constructor
    · rintro rfl; exact ⟨[], rfl⟩
    · rintro ⟨s, hs⟩
      match t with
      | [] => rfl
      | a :: t' => simp at hs
  | cons a rest ih =>
    intro t
    simp [prefixesOf]
    constructor
    · rintro (rfl | ⟨t', ht', rfl⟩)
      · exact ⟨a :: rest, rfl⟩
      · obtain ⟨s, rfl⟩ := (ih t').mp ht'
        exact ⟨s, rfl⟩
    · rintro ⟨s, hs⟩
      match t with
      | [] => exact Or.inl rfl
      | b :: t' =>
        simp at hs
        obtain ⟨rfl, hs⟩ := hs
        exact Or.inr ⟨t', (ih t').mpr ⟨s, hs⟩, rfl⟩

theorem ancClosedOn_spec {fsEx : Path → Bool} {p t : Path}
    (h : ancClosedOn fsEx p = true) (ht : Under t p) : fsEx t = true := by
  have := List.all_eq_true.mp h t ((mem_prefixesOf p t).mpr ht)
  simpa using this

/-! ## Lemmas: the per-record decision -/

theorem perRecordOp_cases {refRs : List Record} {rp : Path} {tr : Record} {op : Op}
    (h : op ∈ perRecordOp refRs rp tr) :
    op = Op.del (rp ++ [tr.name]) ∨ op = Op.copy (rp ++ [tr.name]) := by
  rcases hf : refRs.find? (fun r => r.name == tr.name) with _ | r <;>
    simp only [perRecordOp, hf] at h
  · simp at h; exact Or.inl h
  · by_cases h1 : (tr.hash.isNone != r.hash.isNone) = true
    · rw [if_pos h1] at h; simp at h; exact Or.inl h
    · rw [if_neg h1] at h
      by_cases h2 : tr.hash.isNone = true
      · rw [if_pos h2] at h; simp at h
      · rw [if_neg h2] at h
        by_cases h3 : tr.hash ≠ r.hash
        · rw [if_pos h3] at h; simp at h; exact Or.inr h
        · rw [if_neg h3] at h; simp at h

theorem perRecordOp_no_create {refRs : List Record} {rp : Path} {tr : Record}
    {x : Path} : Op.create x ∉ perRecordOp refRs rp tr := by
  intro h
  rcases perRecordOp_cases h with h | h <;> simp at h

/-! ## Lemmas: the inner loops of `sync_directory` -/

theorem innerLoop_none (e : Tree) (fsEx : Path → Bool) (rp : Path) (d : Bool) :
    ∀ rs, innerLoop e fsEx rp none d rs =
      some (rs.map (fun tr => Op.del (rp ++ [tr.name])), d) := by
  intro rs
  induction rs with
  | nil => rfl
  | cons tr trs ih => simp [innerLoop, ih]

theorem innerLoop_done (e : Tree) (fsEx : Path → Bool) (rp : Path)
    (refRs : List Record) :
    ∀ rs, innerLoop e fsEx rp (some refRs) true rs =
      some (rs.flatMap (perRecordOp refRs rp), true) := by
  intro rs
  induction rs with
  | nil => rfl
  | cons tr trs ih => simp [innerLoop, ih]

theorem innerLoop_fresh (e : Tree) (fsEx : Path → Bool) (rp : Path)
    (refRs : List Record) (tr : Record) (trs : List Record) :
    innerLoop e fsEx rp (some refRs) false (tr :: trs) =
      (expandMissing e fsEx rp refRs).map
        (fun exp =>
          (exp ++ (perRecordOp refRs rp tr ++ trs.flatMap (perRecordOp refRs rp)),
            true)) := by
  cases hE : expandMissing e fsEx rp refRs <;>
    simp [innerLoop, hE, innerLoop_done]

theorem syncRun_nil (e : Tree) (fsEx : Path → Bool) (pr : List Path) :
    syncRun e fsEx pr [] = some [] := rfl

theorem syncRun_cons (e : Tree) (fsEx : Path → Bool) (pr : List Path) (rp : Path)
    (rs : List Record) (rest : Tree) :
    syncRun e fsEx pr ((rp, rs) :: rest) =
      (innerLoop e fsEx rp (lookupA e rp) (decide (rp ∈ pr)) rs).bind
        (fun blk =>
          (syncRun e fsEx (if blk.2 = true ∧ rp ∉ pr then rp :: pr else pr)
              rest).map
            (fun os => blk.1 ++ os)) := rfl

theorem syncRun_cons_nolookup {e : Tree} {fsEx : Path → Bool} {pr : List Path}
    {rp : Path} (rs : List Record) (rest : Tree) (h : lookupA e rp = none) :
    syncRun e fsEx pr ((rp, rs) :: rest) =
      (syncRun e fsEx pr rest).map
        (fun os => rs.map (fun tr => Op.del (rp ++ [tr.name])) ++ os) := by
  by_cases hm : rp ∈ pr <;>
    simp [syncRun_cons, h, innerLoop_none, hm]

theorem syncRun_cons_done {e : Tree} {fsEx : Path → Bool} {pr : List Path}
    {rp : Path} {refRs : List Record} (rs : List Record) (rest : Tree)
    (h : lookupA e rp = some refRs) (hin : rp ∈ pr) :
    syncRun e fsEx pr ((rp, rs) :: rest) =
      (syncRun e fsEx pr rest).map
        (fun os => rs.flatMap (perRecordOp refRs rp) ++ os) := by
  simp [syncRun_cons, h, hin, innerLoop_done]

theorem syncRun_cons_fresh {e : Tree} {fsEx : Path → Bool} {pr : List Path}
    {rp : Path} {refRs : List Record} (tr : Record) (trs : List Record)
    (rest : Tree) (h : lookupA e rp = some refRs) (hnin : rp ∉ pr) :
    syncRun e fsEx pr ((rp, tr :: trs) :: rest) =
      (expandMissing e fsEx rp refRs).bind
        (fun exp =>
          (syncRun e fsEx (rp :: pr) rest).map
            (fun os =>
              (exp ++ (perRecordOp refRs rp tr ++
                trs.flatMap (perRecordOp refRs rp))) ++ os)) := by
  cases hE : expandMissing e fsEx rp refRs <;>
    simp [syncRun_cons, h, hnin, innerLoop_fresh, hE]

theorem syncRun_cons_emptyRs (e : Tree) (fsEx : Path → Bool) (pr : List Path)
    (rp : Path) (rest : Tree) :
    syncRun e fsEx pr ((rp, []) :: rest) = syncRun e fsEx pr rest := by
  by_cases hm : rp ∈ pr <;>
    cases hR : syncRun e fsEx pr rest <;>
      simp [syncRun_cons, innerLoop, hm, hR]

/-! ## Lemmas: `copy_record` -/

theorem copyListWith_prop {f : Record → Path → Option (List Op)}
    {φ : Path → List Op → Prop} (hnil : ∀ rp, φ rp [])
    (happ : ∀ rp a b, φ rp a → φ rp b → φ rp (a ++ b))
    (hf : ∀ r rp l, f r rp = some l → φ rp l) :
    ∀ rs rp l, copyListWith f rs rp = some l → φ rp l := by
  intro rs
  induction rs with
  | nil =>
    intro rp l h
    simp [copyListWith] at h
    exact h ▸ hnil rp
  | cons r rest ih =>
    intro rp l h
    simp only [copyListWith, Option.bind_eq_some, Option.map_eq_some'] at h
    obtain ⟨l1, h1, l2, h2, rfl⟩ := h
    exact happ rp l1 l2 (hf r rp l1 h1) (ih rp l2 h2)

theorem copy_record_shape : ∀ (fuel : Nat) (e : Tree) (r : Record) (rp : Path)
    (l : List Op), copy_record fuel e r rp = some l →
    ∀ op ∈ l, Under (rp ++ [r.name]) (pathOf op) ∧ ∀ x, op ≠ Op.del x := by
  intro fuel
  induction fuel with
  | zero => intro e r rp l h; simp [copy_record] at h
  | succ fuel ih =>
    intro e r rp l h op hop
    match hr : r.hash with
    | some hsh =>
      rw [show r = ⟨r.name, some hsh⟩ by cases r; simp_all] at h
      simp [copy_record] at h
      subst h
      simp at hop
      subst hop
      exact ⟨Under.rfl _, by simp [pathOf]⟩
    | none =>
      rw [show r = ⟨r.name, none⟩ by cases r; simp_all] at h
      simp only [copy_record] at h
      rcases hl : lookupA e (rp ++ [r.name]) with _ | children <;> rw [hl] at h
      · simp at h
      · simp only [Option.map_eq_some'] at h
        obtain ⟨l', h', rfl⟩ := h
        rcases List.mem_cons.mp hop with rfl | hop
        · exact ⟨Under.rfl _, by simp [pathOf]⟩
        · have hφ := copyListWith_prop
            (φ := fun q m => ∀ o ∈ m, StrictUnder q (pathOf o) ∧ ∀ x, o ≠ Op.del x)
            (f := fun c q => copy_record fuel e c q)
            (fun _ _ h => absurd h (by simp))
            (fun _ a b ha hb o ho => by
              rcases List.mem_append.mp ho with h | h
              exacts [ha o h, hb o h])
            (fun c q m hm o ho => by
              obtain ⟨⟨s, hs⟩, hnd⟩ := ih e c q m hm o ho
              exact ⟨⟨c.name :: s, by simp, by simp [hs]⟩, hnd⟩)
            children (rp ++ [r.name]) l' h'
          have := hφ op hop
          exact ⟨this.1.toUnder, this.2⟩

theorem copy_record_dir_struct {fuel : Nat} {e : Tree} {r : Record} {rp : Path}
    {l : List Op} (hdir : r.hash = none) (h : copy_record fuel e r rp = some l) :
    ∃ tail, l = Op.create (rp ++ [r.name]) :: tail ∧
      ∀ op ∈ tail, StrictUnder (rp ++ [r.name]) (pathOf op) ∧ ∀ x, op ≠ Op.del x := by
  match fuel with
  | 0 => simp [copy_record] at h
  | fuel + 1 =>
    rw [show r = ⟨r.name, none⟩ by cases r; simp_all] at h
    simp only [copy_record] at h
    rcases hl : lookupA e (rp ++ [r.name]) with _ | children <;> rw [hl] at h
    · simp at h
    · simp only [Option.map_eq_some'] at h
      obtain ⟨l', h', rfl⟩ := h
      refine ⟨l', rfl, ?_⟩
      exact copyListWith_prop
        (φ := fun q m => ∀ o ∈ m, StrictUnder q (pathOf o) ∧ ∀ x, o ≠ Op.del x)
        (f := fun c q => copy_record fuel e c q)
        (fun _ _ h => absurd h (by simp))
        (fun _ a b ha hb o ho => by
          rcases List.mem_append.mp ho with h | h
          exacts [ha o h, hb o h])
        (fun c q m hm o ho => by
          obtain ⟨⟨s, hs⟩, hnd⟩ := copy_record_shape fuel e c q m hm o ho
          exact ⟨⟨c.name :: s, by simp, by simp [hs]⟩, hnd⟩)
        children (rp ++ [r.name]) l' h'

/-! ## Lemmas: `expandMissing` -/

theorem expandMissing_append (e : Tree) (fsEx : Path → Bool) (rp : Path) :
    ∀ xs ys, expandMissing e fsEx rp (xs ++ ys) =
      (expandMissing e fsEx rp xs).bind
        (fun a => (expandMissing e fsEx rp ys).map (fun b => a ++ b)) := by
  intro xs
  induction xs with
  | nil =>
    intro ys
    cases hy : expandMissing e fsEx rp ys <;> simp [expandMissing, hy]
  | cons r rest ih =>
    intro ys
    by_cases hx : fsEx (rp ++ [r.name]) = true
    · simp [expandMissing, hx, ih]
    · replace hx : fsEx (rp ++ [r.name]) = false := by simpa using hx
      cases hc : copy_record (e.length + 1) e r rp <;>
        cases hrest : expandMissing e fsEx rp rest <;>
          cases hy : expandMissing e fsEx rp ys <;>
            simp [expandMissing, hx, hc, hrest, hy, ih]

theorem expandMissing_mem {e : Tree} {fsEx : Path → Bool} {rp : Path} :
    ∀ rs l, expandMissing e fsEx rp rs = some l → ∀ op ∈ l,
      ∃ r ∈ rs, fsEx (rp ++ [r.name]) = false ∧
        ∃ lc, copy_record (e.length + 1) e r rp = some lc ∧ op ∈ lc := by
  intro rs
  induction rs with
  | nil => intro l h op hop; simp [expandMissing] at h; subst h; simp at hop
  | cons r rest ih =>
    intro l h op hop
    by_cases hx : fsEx (rp ++ [r.name]) = true
    · simp only [expandMissing, hx, if_true] at h
      obtain ⟨r', hr', hrest⟩ := ih l h op hop
      exact ⟨r', List.mem_cons_of_mem _ hr', hrest⟩
    · replace hx : fsEx (rp ++ [r.name]) = false := by simpa using hx
      simp only [expandMissing, hx, Bool.false_eq_true, if_false,
        Option.bind_eq_some, Option.map_eq_some'] at h
      obtain ⟨lc, hlc, l2, hl2, rfl⟩ := h
      rcases List.mem_append.mp hop with hmem | hmem
      · exact ⟨r, List.mem_cons_self .., hx, lc, hlc, List.mem_reverse.mp hmem⟩
      · obtain ⟨r', hr', hrest⟩ := ih l2 hl2 op hmem
        exact ⟨r', List.mem_cons_of_mem _ hr', hrest⟩

theorem expandMissing_no_del {e : Tree} {fsEx : Path → Bool} {rp : Path}
    {rs : List Record} {l : List Op} (h : expandMissing e fsEx rp rs = some l)
    {x : Path} : Op.del x ∉ l := by
  intro hmem
  obtain ⟨r, _, _, lc, hlc, hin⟩ := expandMissing_mem rs l h _ hmem
  exact (copy_record_shape _ e r rp lc hlc _ hin).2 x rfl

/-! ## Lemmas: where operations in a run come from -/

theorem perRecordOp_del_mem {refRs : List Record} {rp : Path} {tr : Record}
    {x : Path} (h : Op.del x ∈ perRecordOp refRs rp tr) : x = rp ++ [tr.name] := by
  rcases perRecordOp_cases h with h | h <;> simp at h
  exact h

theorem syncRun_create_mem {e : Tree} {fsEx : Path → Bool} :
    ∀ (tgt : Tree) (pr : List Path) (ops : List Op),
      syncRun e fsEx pr tgt = some ops → ∀ x, Op.create x ∈ ops →
      ∃ k refRs c rs, (k, rs) ∈ tgt ∧ k ∉ pr ∧ lookupA e k = some refRs ∧
        c ∈ refRs ∧ fsEx (k ++ [c.name]) = false ∧ Under (k ++ [c.name]) x := by
  intro tgt
  induction tgt with
  | nil =>
    intro pr ops h x hx
    rw [syncRun_nil] at h
    cases h
    simp at hx
  | cons b rest ih =>
    obtain ⟨rp, rs⟩ := b
    intro pr ops h x hx
    rcases hL : lookupA e rp with _ | refRs
    · rw [syncRun_cons_nolookup rs rest hL] at h
      obtain ⟨os, hos, rfl⟩ := Option.map_eq_some'.mp h
      rcases List.mem_append.mp hx with hmem | hmem
      · simp at hmem
      · obtain ⟨k, refRs, c, rs', hb, hnp, hrest⟩ := ih pr os hos x hmem
        exact ⟨k, refRs, c, rs', List.mem_cons_of_mem _ hb, hnp, hrest⟩
    · by_cases hin : rp ∈ pr
      · rw [syncRun_cons_done rs rest hL hin] at h
        obtain ⟨os, hos, rfl⟩ := Option.map_eq_some'.mp h
        rcases List.mem_append.mp hx with hmem | hmem
        · obtain ⟨tr, _, hopm⟩ := List.mem_flatMap.mp hmem
          exact absurd hopm perRecordOp_no_create
        · obtain ⟨k, refRs', c, rs', hb, hnp, hrest⟩ := ih pr os hos x hmem
          exact ⟨k, refRs', c, rs', List.mem_cons_of_mem _ hb, hnp, hrest⟩
      · cases rs with
        | nil =>
          rw [syncRun_cons_emptyRs] at h
          obtain ⟨k, refRs', c, rs', hb, hnp, hrest⟩ := ih pr ops h x hx
          exact ⟨k, refRs', c, rs', List.mem_cons_of_mem _ hb, hnp, hrest⟩
        | cons tr trs =>
          rw [syncRun_cons_fresh tr trs rest hL hin] at h
          simp only [Option.bind_eq_some, Option.map_eq_some'] at h
          obtain ⟨exp, hexp, os, hos, rfl⟩ := h
          rcases List.mem_append.mp hx with hmem | hmem
          · rcases List.mem_append.mp hmem with hm2 | hm2
            · obtain ⟨c, hc, hf, lc, hlc, hin2⟩ :=
                expandMissing_mem refRs exp hexp _ hm2
              have hu := (copy_record_shape _ e c rp lc hlc _ hin2).1
              exact ⟨rp, refRs, c, tr :: trs, List.mem_cons_self .., hin, hL, hc,
                hf, by simpa [pathOf] using hu⟩
            · rcases List.mem_append.mp hm2 with hm3 | hm3
              · exact absurd hm3 perRecordOp_no_create
              · obtain ⟨tr', _, hopm⟩ := List.mem_flatMap.mp hm3
                exact absurd hopm perRecordOp_no_create
          · obtain ⟨k, refRs', c, rs', hb, hnp, hrest⟩ := ih (rp :: pr) os hos x hmem
            exact ⟨k, refRs', c, rs', List.mem_cons_of_mem _ hb,
              fun hk => hnp (List.mem_cons_of_mem _ hk), hrest⟩

theorem syncRun_copy_mem {e : Tree} {fsEx : Path → Bool} :
    ∀ (tgt : Tree) (pr : List Path) (ops : List Op),
      syncRun e fsEx pr tgt = some ops → ∀ x, Op.copy x ∈ ops →
      (∃ k rs tr refRs, (k, rs) ∈ tgt ∧ tr ∈ rs ∧ x = k ++ [tr.name] ∧
        lookupA e k = some refRs ∧ Op.copy x ∈ perRecordOp refRs k tr) ∨
      (∃ k refRs c rs, (k, rs) ∈ tgt ∧ k ∉ pr ∧ lookupA e k = some refRs ∧
        c ∈ refRs ∧ fsEx (k ++ [c.name]) = false ∧ Under (k ++ [c.name]) x) := by
  intro tgt
  induction tgt with
  | nil =>
    intro pr ops h x hx
    rw [syncRun_nil] at h
    cases h
    simp at hx
  | cons b rest ih =>
    obtain ⟨rp, rs⟩ := b
    intro pr ops h x hx
    have lift :
        (∃ k rs tr refRs, (k, rs) ∈ rest ∧ tr ∈ rs ∧ x = k ++ [tr.name] ∧
          lookupA e k = some refRs ∧ Op.copy x ∈ perRecordOp refRs k tr) ∨
          (∃ k refRs c rs', (k, rs') ∈ rest ∧ k ∉ pr ∧ lookupA e k = some refRs ∧
            c ∈ refRs ∧ fsEx (k ++ [c.name]) = false ∧ Under (k ++ [c.name]) x) →
        (∃ k rs' tr refRs, (k, rs') ∈ (rp, rs) :: rest ∧ tr ∈ rs' ∧
          x = k ++ [tr.name] ∧ lookupA e k = some refRs ∧
          Op.copy x ∈ perRecordOp refRs k tr) ∨
          (∃ k refRs c rs', (k, rs') ∈ (rp, rs) :: rest ∧ k ∉ pr ∧
            lookupA e k = some refRs ∧ c ∈ refRs ∧ fsEx (k ++ [c.name]) = false ∧
            Under (k ++ [c.name]) x) := by
      rintro (⟨k, rs', tr, refRs', hb, htr, hx'⟩ |
        ⟨k, refRs', c, rs', hb, hnp, hrest⟩)
      · exact Or.inl ⟨k, rs', tr, refRs', List.mem_cons_of_mem _ hb, htr, hx'⟩
      · exact Or.inr ⟨k, refRs', c, rs', List.mem_cons_of_mem _ hb, hnp, hrest⟩
    rcases hL : lookupA e rp with _ | refRs
    · rw [syncRun_cons_nolookup rs rest hL] at h
      obtain ⟨os, hos, rfl⟩ := Option.map_eq_some'.mp h
      rcases List.mem_append.mp hx with hmem | hmem
      · simp at hmem
      · exact lift (ih pr os hos x hmem)
    · by_cases hin : rp ∈ pr
      · rw [syncRun_cons_done rs rest hL hin] at h
        obtain ⟨os, hos, rfl⟩ := Option.map_eq_some'.mp h
        rcases List.mem_append.mp hx with hmem | hmem
        · obtain ⟨tr, htr, hopm⟩ := List.mem_flatMap.mp hmem
          have hxeq : x = rp ++ [tr.name] := by
            rcases perRecordOp_cases hopm with hc | hc <;> simp at hc
            exact hc
          exact Or.inl ⟨rp, rs, tr, refRs, List.mem_cons_self .., htr, hxeq,
            hL, hopm⟩
        · exact lift (ih pr os hos x hmem)
      · cases rs with
        | nil =>
          rw [syncRun_cons_emptyRs] at h
          exact lift (ih pr ops h x hx)
        | cons tr trs =>
          rw [syncRun_cons_fresh tr trs rest hL hin] at h
          simp only [Option.bind_eq_some, Option.map_eq_some'] at h
          obtain ⟨exp, hexp, os, hos, rfl⟩ := h
          rcases List.mem_append.mp hx with hmem | hmem
          · rcases List.mem_append.mp hmem with hm2 | hm2
            · obtain ⟨c, hc, hf, lc, hlc, hin2⟩ :=
                expandMissing_mem refRs exp hexp _ hm2
              have hu := (copy_record_shape _ e c rp lc hlc _ hin2).1
              exact Or.inr ⟨rp, refRs, c, tr :: trs, List.mem_cons_self .., hin,
                hL, hc, hf, by simpa [pathOf] using hu⟩
            · rcases List.mem_append.mp hm2 with hm3 | hm3
              · have hxeq : x = rp ++ [tr.name] := by
                  rcases perRecordOp_cases hm3 with hc | hc <;> simp at hc
                  exact hc
                exact Or.inl ⟨rp, tr :: trs, tr, refRs, List.mem_cons_self ..,
                  by simp, hxeq, hL, hm3⟩
              · obtain ⟨tr', htr', hopm⟩ := List.mem_flatMap.mp hm3
                have hxeq : x = rp ++ [tr'.name] := by
                  rcases perRecordOp_cases hopm with hc | hc <;> simp at hc
                  exact hc
                exact Or.inl ⟨rp, tr :: trs, tr', refRs, List.mem_cons_self ..,
                  List.mem_cons_of_mem _ htr', hxeq, hL, hopm⟩
          · have := ih (rp :: pr) os hos x hmem
            rcases this with h1 | ⟨k, refRs', c, rs', hb, hnp, hrest⟩
            · exact lift (Or.inl h1)
            · exact Or.inr ⟨k, refRs', c, rs', List.mem_cons_of_mem _ hb,
                fun hk => hnp (List.mem_cons_of_mem _ hk), hrest⟩

theorem syncRun_del_mem {e : Tree} {fsEx : Path → Bool} :
    ∀ (tgt : Tree) (pr : List Path) (ops : List Op),
      syncRun e fsEx pr tgt = some ops → ∀ x, Op.del x ∈ ops →
      ∃ k rs tr, (k, rs) ∈ tgt ∧ tr ∈ rs ∧ x = k ++ [tr.name] := by
  intro tgt
  induction tgt with
  | nil =>
    intro pr ops h x hx
    rw [syncRun_nil] at h
    cases h
    simp at hx
  | cons b rest ih =>
    obtain ⟨rp, rs⟩ := b
    intro pr ops h x hx
    have lift : (∃ k rs' tr, (k, rs') ∈ rest ∧ tr ∈ rs' ∧ x = k ++ [tr.name]) →
        ∃ k rs' tr, (k, rs') ∈ (rp, rs) :: rest ∧ tr ∈ rs' ∧ x = k ++ [tr.name] := by
      rintro ⟨k, rs', tr, hb, htr, hx'⟩
      exact ⟨k, rs', tr, List.mem_cons_of_mem _ hb, htr, hx'⟩
    rcases hL : lookupA e rp with _ | refRs
    · rw [syncRun_cons_nolookup rs rest hL] at h
      obtain ⟨os, hos, rfl⟩ := Option.map_eq_some'.mp h
      rcases List.mem_append.mp hx with hmem | hmem
      · obtain ⟨tr, htr, heq⟩ := List.mem_map.mp hmem
        simp at heq
        exact ⟨rp, rs, tr, List.mem_cons_self .., htr, heq.symm⟩
      · exact lift (ih pr os hos x hmem)
    · by_cases hin : rp ∈ pr
      · rw [syncRun_cons_done rs rest hL hin] at h
        obtain ⟨os, hos, rfl⟩ := Option.map_eq_some'.mp h
        rcases List.mem_append.mp hx with hmem | hmem
        · obtain ⟨tr, htr, hopm⟩ := List.mem_flatMap.mp hmem
          exact ⟨rp, rs, tr, List.mem_cons_self .., htr, perRecordOp_del_mem hopm⟩
        · exact lift (ih pr os hos x hmem)
      · cases rs with
        | nil =>
          rw [syncRun_cons_emptyRs] at h
          exact lift (ih pr ops h x hx)
        | cons tr trs =>
          rw [syncRun_cons_fresh tr trs rest hL hin] at h
          simp only [Option.bind_eq_some, Option.map_eq_some'] at h
          obtain ⟨exp, hexp, os, hos, rfl⟩ := h
          rcases List.mem_append.mp hx with hmem | hmem
          · rcases List.mem_append.mp hmem with hm2 | hm2
            · exact absurd hm2 (expandMissing_no_del hexp)
            · rcases List.mem_append.mp hm2 with hm3 | hm3
              · exact ⟨rp, tr :: trs, tr, List.mem_cons_self .., by simp,
                  perRecordOp_del_mem hm3⟩
              · obtain ⟨tr', htr', hopm⟩ := List.mem_flatMap.mp hm3
                exact ⟨rp, tr :: trs, tr', List.mem_cons_self ..,
                  List.mem_cons_of_mem _ htr', perRecordOp_del_mem hopm⟩
          · exact lift (ih (rp :: pr) os hos x hmem)

/-! ## Lemmas: counting deletes -/

theorem delCount_nil (e : Tree) (p : Path) : delCount e p [] = 0 := rfl

theorem delCount_cons (e : Tree) (p : Path) (rp : Path) (rs : List Record)
    (rest : Tree) :
    delCount e p ((rp, rs) :: rest) =
      rs.countP (fun tr => delHere e rp tr p) + delCount e p rest := rfl

theorem delHere_of_nolookup {e : Tree} {rp : Path} (tr : Record) (p : Path)
    (h : lookupA e rp = none) :
    delHere e rp tr p = decide (rp ++ [tr.name] = p) := by
  simp [delHere, h]

theorem perRecordOp_del_count {e : Tree} {refRs : List Record} {rp : Path}
    (tr : Record) (p : Path) (h : lookupA e rp = some refRs) :
    (perRecordOp refRs rp tr).count (Op.del p) =
      if delHere e rp tr p = true then 1 else 0 := by
  simp only [perRecordOp, delHere, h]
  rcases hf : refRs.find? (fun r => r.name == tr.name) with _ | r <;>
    simp only [hf]
  · by_cases hp : rp ++ [tr.name] = p <;> simp [hp, List.count_cons]
  · by_cases h1 : (tr.hash.isNone != r.hash.isNone) = true
    · rw [if_pos h1]
      by_cases hp : rp ++ [tr.name] = p <;> simp [hp, h1, List.count_cons]
    · have h1' : (tr.hash.isNone != r.hash.isNone) = false := by simpa using h1
      rw [if_neg h1]
      by_cases h2 : tr.hash.isNone = true
      · rw [if_pos h2]; simp [h1']
      · rw [if_neg h2]
        by_cases h3 : tr.hash ≠ r.hash
        · rw [if_pos h3]; simp [h1', List.count_cons]
        · rw [if_neg h3]; simp [h1']

theorem flatMap_del_count {e : Tree} {refRs : List Record} {rp : Path} (p : Path)
    (h : lookupA e rp = some refRs) :
    ∀ rs : List Record,
      (rs.flatMap (perRecordOp refRs rp)).count (Op.del p) =
        rs.countP (fun tr => delHere e rp tr p) := by
  intro rs
  induction rs with
  | nil => simp
  | cons tr trs ih =>
    rw [List.flatMap_cons, List.count_append, ih, List.countP_cons,
      perRecordOp_del_count tr p h]
    by_cases hd : delHere e rp tr p = true <;> simp [hd] <;> omega

theorem map_del_count (rp p : Path) :
    ∀ rs : List Record,
      ((rs.map (fun tr => Op.del (rp ++ [tr.name]))).count (Op.del p)) =
        rs.countP (fun tr => decide (rp ++ [tr.name] = p)) := by
  intro rs
  induction rs with
  | nil => simp
  | cons tr trs ih =>
    rw [List.map_cons, List.count_cons, ih, List.countP_cons]
    by_cases hp : rp ++ [tr.name] = p <;> simp [hp]

theorem syncRun_del_count {e : Tree} {fsEx : Path → Bool} (p : Path) :
    ∀ (tgt : Tree) (pr : List Path) (ops : List Op),
      syncRun e fsEx pr tgt = some ops →
      ops.count (Op.del p) = delCount e p tgt := by
  intro tgt
  induction tgt with
  | nil =>
    intro pr ops h
    rw [syncRun_nil] at h
    cases h
    simp [delCount_nil]
  | cons b rest ih =>
    obtain ⟨rp, rs⟩ := b
    intro pr ops h
    rw [delCount_cons]
    rcases hL : lookupA e rp with _ | refRs
    · rw [syncRun_cons_nolookup rs rest hL] at h
      obtain ⟨os, hos, rfl⟩ := Option.map_eq_some'.mp h
      rw [List.count_append, ih pr os hos, map_del_count rp p rs]
      congr 1
      exact List.countP_congr (fun tr _ => by rw [delHere_of_nolookup tr p hL])
    · by_cases hin : rp ∈ pr
      · rw [syncRun_cons_done rs rest hL hin] at h
        obtain ⟨os, hos, rfl⟩ := Option.map_eq_some'.mp h
        rw [List.count_append, ih pr os hos, flatMap_del_count p hL rs]
      · cases rs with
        | nil =>
          rw [syncRun_cons_emptyRs] at h
          rw [ih pr ops h]
          simp
        | cons tr trs =>
          rw [syncRun_cons_fresh tr trs rest hL hin] at h
          simp only [Option.bind_eq_some, Option.map_eq_some'] at h
          obtain ⟨exp, hexp, os, hos, rfl⟩ := h
          rw [List.count_append, List.count_append, List.count_append,
            ih (rp :: pr) os hos,
            List.count_eq_zero.mpr (expandMissing_no_del hexp),
            flatMap_del_count p hL trs, List.countP_cons,
            perRecordOp_del_count tr p hL]
          by_cases hd : delHere e rp tr p = true <;> simp [hd] <;> omega

/-! ## Lemmas: the association-list map operations -/

theorem lookupA_insertA (l : Tree) (k : Path) (v : List Record) (k' : Path) :
    lookupA (insertA l k v) k' = if k' = k then some v else lookupA l k' := by
  induction l with
  | nil =>
    simp only [insertA, lookupA]
    by_cases h : k' = k
    · subst h; simp
    · rw [if_neg (fun he => h he.symm), if_neg h]
  | cons b rest ih =>
    obtain ⟨kb, vb⟩ := b
    by_cases hb : kb = k
    · subst hb
      simp only [insertA, if_pos rfl, lookupA]
      by_cases h : k' = kb
      · subst h; rw [if_pos rfl, if_pos rfl]
      · rw [if_neg (fun he => h he.symm), if_neg h, if_neg (fun he => h he.symm)]
    · simp only [insertA, if_neg hb, lookupA]
      by_cases h : kb = k'
      · rw [if_pos h, if_neg (fun he => hb (h.trans he)), if_pos h]
      · rw [if_neg h, if_neg h, ih]

theorem pushRec_some_of_key {l : Tree} {k : Path}
    (h : (lookupA l k).isSome = true) (r : Record) :
    ∃ l', pushRec l k r = some l' := by
  induction l with
  | nil => simp [lookupA] at h
  | cons b rest ih =>
    obtain ⟨kb, vb⟩ := b
    by_cases hb : kb = k
    · exact ⟨(kb, vb ++ [r]) :: rest, by simp [pushRec, hb]⟩
    · rw [lookupA, if_neg hb] at h
      obtain ⟨l', hl'⟩ := ih h
      exact ⟨(kb, vb) :: l', by simp [pushRec, hb, hl']⟩

theorem pushRec_lookupA {l : Tree} {k : Path} {r : Record} {l' : Tree}
    (h : pushRec l k r = some l') (k' : Path) :
    lookupA l' k' =
      if k' = k then (lookupA l k).map (fun v => v ++ [r]) else lookupA l k' := by
  induction l generalizing l' with
  | nil => simp [pushRec] at h
  | cons b rest ih =>
    obtain ⟨kb, vb⟩ := b
    by_cases hb : kb = k
    · subst hb
      rw [pushRec, if_pos rfl] at h
      cases h
      by_cases h' : kb = k'
      · rw [lookupA, if_pos h', if_pos h'.symm, lookupA, if_pos rfl]
        rfl
      · rw [lookupA, if_neg h', if_neg (fun he => h' he.symm), lookupA, if_neg h']
    · rw [pushRec, if_neg hb] at h
      simp only [Option.map_eq_some'] at h
      obtain ⟨l2, hl2, rfl⟩ := h
      by_cases h' : kb = k'
      · have hkk : ¬ k' = k := fun he => hb (h'.trans he)
        rw [lookupA, if_pos h', if_neg hkk, lookupA, if_pos h']
      · rw [lookupA, if_neg h', ih hl2, lookupA, if_neg hb, lookupA, if_neg h']

/-! ## Lemmas: the traversal of `map_directory` -/

theorem travStep_ioFail (e : String) (item : Except String WalkEntry) :
    travStep (.ioFail e) item = .ioFail e := rfl

theorem travStep_panicked (item : Except String WalkEntry) :
    travStep .panicked item = .panicked := rfl

theorem foldl_travStep_ioFail (e : String) :
    ∀ items : List (Except String WalkEntry),
      items.foldl travStep (.ioFail e) = .ioFail e := by
  intro items
  induction items with
  | nil => rfl
  | cons i rest ih => rw [List.foldl_cons, travStep_ioFail, ih]

theorem foldl_travStep_panicked :
    ∀ items : List (Except String WalkEntry),
      items.foldl travStep .panicked = .panicked := by
  intro items
  induction items with
  | nil => rfl
  | cons i rest ih => rw [List.foldl_cons, travStep_panicked, ih]

theorem trav_ok :
    ∀ (entries : List WalkEntry) (seen : List Path) (recs : Tree)
      (files : List (Path × String × String)),
      dirsParented seen entries = true →
      (lookupA recs []).isSome = true →
      (∀ k ∈ seen, (lookupA recs k).isSome = true) →
      ∃ recs' files',
        (entries.map Except.ok).foldl travStep (.normal recs files) =
          .normal recs' files' := by
  intro entries
  induction entries with
  | nil => intro seen recs files _ _ _; exact ⟨recs, files, rfl⟩
  | cons en rest ih =>
    intro seen recs files hpar hroot hseen
    rcases hdir : en.isDir with _ | _
    · rw [dirsParented, if_neg (by simp [hdir])] at hpar
      rw [List.map_cons, List.foldl_cons]
      have hstep : travStep (.normal recs files) (Except.ok en) =
          .normal recs (files ++ [(en.parent, en.name, en.fullPath)]) := by
        simp [travStep, hdir]
      rw [hstep]
      exact ih seen recs _ hpar hroot hseen
    · rw [dirsParented, if_pos (by simp [hdir])] at hpar
      simp only [Bool.and_eq_true, Bool.or_eq_true, decide_eq_true_eq] at hpar
      obtain ⟨hparent, hrest⟩ := hpar
      have hkey : (lookupA (insertA recs (en.parent ++ [en.name]) []) en.parent).isSome
          = true := by
        rw [lookupA_insertA]
        split_ifs with he
        · simp
        · rcases hparent with h | h
          · rw [h]; exact hroot
          · exact hseen _ h
      obtain ⟨recs2, hrecs2⟩ := pushRec_some_of_key hkey ⟨en.name, none⟩
      rw [List.map_cons, List.foldl_cons]
      have hstep : travStep (.normal recs files) (Except.ok en) = .normal recs2 files := by
        simp [travStep, hdir, hrecs2]
      rw [hstep]
      refine ih (seen ++ [en.parent ++ [en.name]]) recs2 files hrest ?_ ?_
      · rw [pushRec_lookupA hrecs2]
        by_cases h1 : ([] : Path) = en.parent
        · rw [if_pos h1]
          simpa using hkey
        · rw [if_neg h1, lookupA_insertA]
          by_cases h2 : ([] : Path) = en.parent ++ [en.name]
          · rw [if_pos h2]; simp
          · rw [if_neg h2]; exact hroot
      · intro k hk
        rw [pushRec_lookupA hrecs2]
        by_cases h1 : k = en.parent
        · rw [if_pos h1]
          simpa using hkey
        · rw [if_neg h1, lookupA_insertA]
          by_cases h2 : k = en.parent ++ [en.name]
          · rw [if_pos h2]; simp
          · rw [if_neg h2]
            rcases List.mem_append.mp hk with hk | hk
            · exact hseen _ hk
            · simp at hk
              exact absurd hk h2

/-! ## Lemmas: the Tree Model invariant through `map_directory` -/

theorem treeInv_init : TreeInv [([], [])] := by
  refine ⟨by simp [lookupA], ?_⟩
  intro k vs h r hr _
  by_cases hk : ([] : Path) = k
  · rw [lookupA, if_pos hk] at h
    cases h
    simp at hr
  · rw [lookupA, if_neg hk] at h
    simp [lookupA] at h

theorem pushRec_inv {recs : Tree} {k : Path} {r : Record} {recs' : Tree}
    (hr : r.hash.isSome = true) (h : pushRec recs k r = some recs')
    (hI : TreeInv recs) : TreeInv recs' := by
  obtain ⟨hroot, hdir⟩ := hI
  have key_pres : ∀ x, (lookupA recs x).isSome = true →
      (lookupA recs' x).isSome = true := by
    intro x hx
    rw [pushRec_lookupA h]
    by_cases h1 : x = k
    · rw [if_pos h1]
      subst h1
      simpa using hx
    · rw [if_neg h1]; exact hx
  constructor
  · exact key_pres [] hroot
  · intro kk vs hvs rr hrr hrdir
    rw [pushRec_lookupA h] at hvs
    by_cases h1 : kk = k
    · rw [if_pos h1] at hvs
      simp only [Option.map_eq_some'] at hvs
      obtain ⟨vold, hvold, rfl⟩ := hvs
      rcases List.mem_append.mp hrr with hm | hm
      · exact key_pres _ (hdir kk vold (by rw [h1]; exact hvold) rr hm hrdir)
      · simp at hm
        subst hm
        rw [hrdir] at hr
        simp at hr
    · rw [if_neg h1] at hvs
      exact key_pres _ (hdir kk vs hvs rr hrr hrdir)

theorem travStep_dir_inv {recs : Tree} {parent : Path} {nm : String} {recs2 : Tree}
    (h : pushRec (insertA recs (parent ++ [nm]) []) parent ⟨nm, none⟩ = some recs2)
    (hI : TreeInv recs) : TreeInv recs2 := by
  obtain ⟨hroot, hdir⟩ := hI
  have hps : ¬ parent = parent ++ [nm] := fun he => by
    have := congrArg List.length he
    simp at this
  have look2 := pushRec_lookupA h
  have self_key : (lookupA recs2 (parent ++ [nm])).isSome = true := by
    rw [look2 (parent ++ [nm]), if_neg (fun he => hps he.symm), lookupA_insertA,
      if_pos rfl]
    simp
  have key_pres : ∀ x, (lookupA recs x).isSome = true →
      (lookupA recs2 x).isSome = true := by
    intro x hx
    rw [look2 x]
    by_cases h1 : x = parent
    · rw [if_pos h1, lookupA_insertA, if_neg hps]
      subst h1
      simpa using hx
    · rw [if_neg h1, lookupA_insertA]
      by_cases h2 : x = parent ++ [nm]
      · rw [if_pos h2]; simp
      · rw [if_neg h2]; exact hx
  constructor
  · exact key_pres [] hroot
  · intro kk vs hvs rr hrr hrdir
    rw [look2 kk] at hvs
    by_cases h1 : kk = parent
    · rw [if_pos h1, lookupA_insertA, if_neg hps] at hvs
      simp only [Option.map_eq_some'] at hvs
      obtain ⟨vold, hvold, rfl⟩ := hvs
      rcases List.mem_append.mp hrr with hm | hm
      · exact key_pres _ (hdir kk vold (by rw [h1]; exact hvold) rr hm hrdir)
      · simp at hm
        subst hm
        rw [h1]
        exact self_key
    · rw [if_neg h1, lookupA_insertA] at hvs
      by_cases h2 : kk = parent ++ [nm]
      · rw [if_pos h2] at hvs
        cases hvs
        simp at hrr
      · rw [if_neg h2] at hvs
        exact key_pres _ (hdir kk vs hvs rr hrr hrdir)

theorem phase1_inv :
    ∀ (items : List (Except String WalkEntry)) (recs : Tree)
      (files : List (Path × String × String)), TreeInv recs →
      ∀ recs' files',
        items.foldl travStep (.normal recs files) = .normal recs' files' →
        TreeInv recs' := by
  intro items
  induction items with
  | nil =>
    intro recs files hI recs' files' h
    cases h
    exact hI
  | cons it rest ih =>
    intro recs files hI recs' files' h
    rw [List.foldl_cons] at h
    rcases it with e | en
    · rw [show travStep (.normal recs files) (.error e) = .ioFail e from rfl,
        foldl_travStep_ioFail] at h
      simp at h
    · rcases hdir : en.isDir with _ | _
      · have hstep : travStep (.normal recs files) (.ok en) =
            .normal recs (files ++ [(en.parent, en.name, en.fullPath)]) := by
          simp [travStep, hdir]
        rw [hstep] at h
        exact ih recs _ hI recs' files' h
      · rcases hpush : pushRec (insertA recs (en.parent ++ [en.name]) [])
            en.parent ⟨en.name, none⟩ with _ | recs2
        · have hstep : travStep (.normal recs files) (.ok en) = .panicked := by
            simp [travStep, hdir, hpush]
          rw [hstep, foldl_travStep_panicked] at h
          simp at h
        · have hstep : travStep (.normal recs files) (.ok en) =
              .normal recs2 files := by
            simp [travStep, hdir, hpush]
          rw [hstep] at h
          exact ih recs2 files (travStep_dir_inv hpush hI) recs' files' h

theorem hashFiles_all_some {hashFn : String → Except String String} :
    ∀ (files : List (Path × String × String)) (frs : List (Path × Record)),
      hashFiles hashFn files = some frs → ∀ fr ∈ frs, fr.2.hash.isSome = true := by
  intro files
  induction files with
  | nil =>
    intro frs h fr hfr
    simp [hashFiles] at h
    subst h
    simp at hfr
  | cons f rest ih =>
    obtain ⟨par, nm, fp⟩ := f
    intro frs h fr hfr
    simp only [hashFiles] at h
    rcases hh : hashFn fp with e | hv <;> rw [hh] at h
    · simp at h
    · simp only [Option.map_eq_some'] at h
      obtain ⟨frs2, hfrs2, rfl⟩ := h
      rcases List.mem_cons.mp hfr with rfl | hm
      · simp
      · exact ih frs2 hfrs2 fr hm

theorem foldlM_pushRec_inv :
    ∀ (frs : List (Path × Record)) (recs recs' : Tree),
      (∀ fr ∈ frs, fr.2.hash.isSome = true) → TreeInv recs →
      frs.foldlM (fun recs fr => pushRec recs fr.1 fr.2) recs = some recs' →
      TreeInv recs' := by
  intro frs
  induction frs with
  | nil =>
    intro recs recs' _ hI h
    simp at h
    exact h ▸ hI
  | cons fr rest ih =>
    intro recs recs' hall hI h
    rw [List.foldlM_cons] at h
    rcases hp : pushRec recs fr.1 fr.2 with _ | recs2 <;> rw [hp] at h
    · simp at h
    · exact ih recs2 recs'
        (fun x hx => hall x (List.mem_cons_of_mem _ hx))
        (pushRec_inv (hall fr (List.mem_cons_self ..)) hp hI) h

/-! ## Lemmas: exactly one delete on a type clash -/

theorem countP_eq_one_of_unique {α : Type} {f : α → Bool} :
    ∀ (l : List α) (a : α), l.Nodup → a ∈ l → f a = true →
      (∀ b ∈ l, f b = true → b = a) → l.countP f = 1 := by
  intro l
  induction l with
  | nil => intro a _ ha; simp at ha
  | cons x xs ih =>
    intro a hnd hmem hfa huniq
    rw [List.nodup_cons] at hnd
    rcases List.mem_cons.mp hmem with rfl | hmem'
    · rw [List.countP_cons, if_pos hfa]
      have h0 : xs.countP f = 0 := by
        rw [List.countP_eq_zero]
        intro b hb hfb
        exact hnd.1 ((huniq b (List.mem_cons_of_mem _ hb) hfb) ▸ hb)
      omega
    · have hfx : ¬ f x = true := by
        intro hfx
        exact hnd.1 ((huniq x (List.mem_cons_self ..) hfx) ▸ hmem')
      rw [List.countP_cons, if_neg hfx]
      have := ih a hnd.2 hmem' hfa
        (fun b hb hfb => huniq b (List.mem_cons_of_mem _ hb) hfb)
      omega

theorem delHere_fst {e : Tree} {k : Path} {tr : Record} {p : Path}
    (h : delHere e k tr p = true) : k ++ [tr.name] = p := by
  simp only [delHere, Bool.and_eq_true, decide_eq_true_eq] at h
  exact h.1

theorem delCount_eq_zero_of_no_key {e : Tree} {rp : Path} {n : String} :
    ∀ tgt : Tree, (∀ b ∈ tgt, b.1 ≠ rp) →
      delCount e (rp ++ [n]) tgt = 0 := by
  intro tgt
  induction tgt with
  | nil => intro _; rfl
  | cons b rest ih =>
    obtain ⟨k, vs⟩ := b
    intro hall
    rw [delCount_cons, ih (fun b hb => hall b (List.mem_cons_of_mem _ hb))]
    have h0 : vs.countP (fun tr => delHere e k tr (rp ++ [n])) = 0 := by
      rw [List.countP_eq_zero]
      intro tr _ hdh
      exact hall _ (List.mem_cons_self ..) (snoc_inj (delHere_fst hdh)).1
    omega

theorem delCount_eq_one {e : Tree} {rp : Path} {n : String} {rs : List Record}
    {tr : Record} :
    ∀ tgt : Tree, (tgt.map Prod.fst).Nodup →
      (∀ b ∈ tgt, (b.2.map Record.name).Nodup) →
      (rp, rs) ∈ tgt → tr ∈ rs → tr.name = n →
      delHere e rp tr (rp ++ [n]) = true →
      delCount e (rp ++ [n]) tgt = 1 := by
  intro tgt
  induction tgt with
  | nil => intro _ _ hb; simp at hb
  | cons b rest ih =>
    obtain ⟨k, vs⟩ := b
    intro hkeys hnames hb htr hn hdh
    rw [List.map_cons, List.nodup_cons] at hkeys
    rw [delCount_cons]
    rcases List.mem_cons.mp hb with he | hbr
    · injection he with h1 h2
      subst h1
      subst h2
      have hzero : delCount e (rp ++ [n]) rest = 0 := by
        refine delCount_eq_zero_of_no_key rest (fun b hb' hbe => hkeys.1 ?_)
        rw [← hbe]
        exact List.mem_map.mpr ⟨b, hb', rfl⟩
      have hone : rs.countP (fun tr' => delHere e rp tr' (rp ++ [n])) = 1 := by
        have hnd : (rs.map Record.name).Nodup :=
          hnames _ (List.mem_cons_self ..)
        refine countP_eq_one_of_unique rs tr hnd.of_map htr hdh ?_
        intro b hb' hfb
        have hbn : b.name = n := by
          have := snoc_inj (delHere_fst hfb)
          exact this.2
        exact List.inj_on_of_nodup_map hnd hb' htr (by rw [hbn, hn])
      omega
    · have hkne : k ≠ rp := by
        intro he
        refine hkeys.1 ?_
        rw [he]
        exact List.mem_map.mpr ⟨(rp, rs), hbr, rfl⟩
      have h0 : vs.countP (fun tr' => delHere e k tr' (rp ++ [n])) = 0 := by
        rw [List.countP_eq_zero]
        intro tr' _ hdh'
        exact hkne (snoc_inj (delHere_fst hdh')).1
      have := ih hkeys.2 (fun b hb' => hnames b (List.mem_cons_of_mem _ hb'))
        hbr htr hn hdh
      omega

/-! ## Lemmas: reconciling a tree against itself -/

theorem find?_name_self {rs : List Record} {tr : Record}
    (hnodup : (rs.map Record.name).Nodup) (htr : tr ∈ rs) :
    rs.find? (fun r => r.name == tr.name) = some tr := by
  induction rs with
  | nil => simp at htr
  | cons r rest ih =>
    simp only [List.map_cons, List.nodup_cons] at hnodup
    rcases List.mem_cons.mp htr with rfl | htr'
    · simp [List.find?]
    · have hne : (r.name == tr.name) = false := by
        simp only [beq_eq_false_iff_ne, ne_eq]
        intro he
        exact hnodup.1 (he ▸ List.mem_map_of_mem Record.name htr')
      simp only [List.find?_cons, hne, cond_false]
      exact ih hnodup.2 htr'

theorem perRecordOp_self {rs : List Record} {rp : Path} {tr : Record}
    (h : rs.find? (fun r => r.name == tr.name) = some tr) :
    perRecordOp rs rp tr = [] := by
  simp only [perRecordOp, h]
  rcases tr with ⟨n, _ | hs⟩ <;> simp

theorem expandMissing_all_exist {e : Tree} {fsEx : Path → Bool} {rp : Path} :
    ∀ rs, (∀ r ∈ rs, fsEx (rp ++ [r.name]) = true) →
      expandMissing e fsEx rp rs = some [] := by
  intro rs
  induction rs with
  | nil => intro _; rfl
  | cons r rest ih =>
    intro hall
    rw [expandMissing, if_pos (hall r (List.mem_cons_self ..))]
    exact ih (fun x hx => hall x (List.mem_cons_of_mem _ hx))

theorem flatMap_perRecordOp_self {rs : List Record} {rp : Path}
    (hnodup : (rs.map Record.name).Nodup) :
    ∀ sub : List Record, (∀ tr ∈ sub, tr ∈ rs) →
      sub.flatMap (perRecordOp rs rp) = [] := by
  intro sub
  induction sub with
  | nil => intro _; rfl
  | cons tr trs ih =>
    intro hall
    rw [List.flatMap_cons,
      perRecordOp_self (find?_name_self hnodup (hall tr (List.mem_cons_self ..))),
      ih (fun x hx => hall x (List.mem_cons_of_mem _ hx))]
    rfl

/-! ## Lemmas: delete ordering -/

theorem append_split_cases {α : Type} {xs ys m1 m2 : List α} {x : α}
    (h : xs ++ ys = m1 ++ x :: m2) :
    (∃ a, xs = m1 ++ x :: a ∧ m2 = a ++ ys) ∨
    (∃ a, m1 = xs ++ a ∧ ys = a ++ x :: m2) := by
  rcases List.append_eq_append_iff.mp h with ⟨a', h1, h2⟩ | ⟨c', h1, h2⟩
  · exact Or.inr ⟨a', h1, h2⟩
  · cases c' with
    | nil =>
      refine Or.inr ⟨[], by simpa using h1.symm, ?_⟩
      simpa using h2.symm
    | cons y a =>
      simp only [List.cons_append] at h2
      injection h2 with hxy hm2
      subst hxy
      exact Or.inl ⟨a, h1, hm2⟩

theorem strictUnder_of_under_lt {p q : Path} (h : Under p q)
    (hl : p.length < q.length) : StrictUnder p q := by
  obtain ⟨s, rfl⟩ := h
  refine ⟨s, fun hs => ?_, rfl⟩
  subst hs
  simp at hl

theorem del_order_step {e : Tree} {fsEx : Path → Bool} {p q : Path}
    (hpq : StrictUnder p q) {pr' : List Path} {rest : Tree}
    {os blk m1 m2 : List Op} {rp : Path}
    (hblk : ∀ x, Op.del x ∈ blk → ∃ nm, x = rp ++ [nm])
    (hos : syncRun e fsEx pr' rest = some os)
    (hhead : ∀ b ∈ rest, ¬ StrictUnder b.1 rp)
    (ihrest : ∀ m1 m2, os = m1 ++ Op.del p :: m2 → Op.del q ∉ m1)
    (hsplit : blk ++ os = m1 ++ Op.del p :: m2) :
    Op.del q ∉ m1 := by
  intro hqm
  rcases append_split_cases hsplit with ⟨a, hxs, _⟩ | ⟨a, hm1, hys⟩
  · obtain ⟨pn, rfl⟩ := hblk p (by
      rw [hxs]; exact List.mem_append.mpr (Or.inr (List.mem_cons_self ..)))
    obtain ⟨qn, rfl⟩ := hblk q (by
      rw [hxs]; exact List.mem_append.mpr (Or.inl hqm))
    exact not_strictUnder_same_length (by simp) hpq
  · subst hm1
    rcases List.mem_append.mp hqm with hq | hq
    · obtain ⟨qn, hqe⟩ := hblk q hq
      have hpin : Op.del p ∈ os := by
        rw [hys]; exact List.mem_append.mpr (Or.inr (List.mem_cons_self ..))
      obtain ⟨k, rs', tr', hb, _, hpk⟩ := syncRun_del_mem rest pr' os hos p hpin
      have hlenq : q.length = rp.length + 1 := by rw [hqe]; simp
      have hlenp : p.length ≤ rp.length := by
        have := hpq.length_lt
        omega
      have hp_under_rp : Under p rp := by
        refine under_of_under_le hpq.toUnder ?_ hlenp
        rw [hqe]
        exact under_snoc_self
      have hk : StrictUnder k rp := by
        subst hpk
        refine strictUnder_of_under_lt (Under.trans under_snoc_self hp_under_rp) ?_
        have := hp_under_rp.length_le
        simp at this ⊢
        omega
      exact hhead _ hb hk
    · exact absurd hq (ihrest a m2 hys)

theorem syncRun_del_order {e : Tree} {fsEx : Path → Bool} {p q : Path}
    (hpq : StrictUnder p q) :
    ∀ (tgt : Tree) (pr : List Path) (ops : List Op),
      tgt.Pairwise (fun a b => ¬ StrictUnder b.1 a.1) →
      syncRun e fsEx pr tgt = some ops →
      ∀ m1 m2, ops = m1 ++ Op.del p :: m2 → Op.del q ∉ m1 := by
  intro tgt
  induction tgt with
  | nil =>
    intro pr ops _ h m1 m2 hsplit
    rw [syncRun_nil] at h
    cases h
    cases m1 <;> simp at hsplit
  | cons b rest ih =>
    obtain ⟨rp, rs⟩ := b
    intro pr ops hPW h m1 m2 hsplit
    rw [List.pairwise_cons] at hPW
    obtain ⟨hhead, hPWrest⟩ := hPW
    rcases hL : lookupA e rp with _ | refRs
    · rw [syncRun_cons_nolookup rs rest hL] at h
      obtain ⟨os, hos, rfl⟩ := Option.map_eq_some'.mp h
      refine del_order_step hpq ?_ hos hhead
        (fun m1 m2 hs => ih pr os hPWrest hos m1 m2 hs) hsplit
      intro x hx
      obtain ⟨tr, _, heq⟩ := List.mem_map.mp hx
      exact ⟨tr.name, by simpa using heq.symm⟩
    · by_cases hin : rp ∈ pr
      · rw [syncRun_cons_done rs rest hL hin] at h
        obtain ⟨os, hos, rfl⟩ := Option.map_eq_some'.mp h
        refine del_order_step hpq ?_ hos hhead
          (fun m1 m2 hs => ih pr os hPWrest hos m1 m2 hs) hsplit
        intro x hx
        obtain ⟨tr, _, hopm⟩ := List.mem_flatMap.mp hx
        exact ⟨tr.name, perRecordOp_del_mem hopm⟩
      · cases rs with
        | nil =>
          rw [syncRun_cons_emptyRs] at h
          exact ih pr ops hPWrest h m1 m2 hsplit
        | cons tr trs =>
          rw [syncRun_cons_fresh tr trs rest hL hin] at h
          simp only [Option.bind_eq_some, Option.map_eq_some'] at h
          obtain ⟨exp, hexp, os, hos, rfl⟩ := h
          refine del_order_step hpq ?_ hos hhead
            (fun m1 m2 hs => ih (rp :: pr) os hPWrest hos m1 m2 hs) hsplit
          intro x hx
          rcases List.mem_append.mp hx with hm | hm
          · exact absurd hm (expandMissing_no_del hexp)
          · rcases List.mem_append.mp hm with hm2 | hm2
            · exact ⟨tr.name, perRecordOp_del_mem hm2⟩
            · obtain ⟨tr', _, hopm⟩ := List.mem_flatMap.mp hm2
              exact ⟨tr'.name, perRecordOp_del_mem hopm⟩

/-! ## Lemmas: creates come before their subtrees -/

theorem lookupA_mem {l : Tree} {k : Path} {v : List Record}
    (h : lookupA l k = some v) : (k, v) ∈ l := by
  induction l with
  | nil => simp [lookupA] at h
  | cons b rest ih =>
    obtain ⟨kb, vb⟩ := b
    rw [lookupA] at h
    split_ifs at h with hb
    · cases h
      exact hb ▸ List.mem_cons_self ..
    · exact List.mem_cons_of_mem _ (ih h)

theorem sibling_not_under {rp : Path} {cn rn : String} {x : Path}
    (hne : cn ≠ rn) (h1 : Under (rp ++ [cn]) x) (h2 : Under (rp ++ [rn]) x) :
    False := by
  rcases under_comparable _ _ x h1 h2 with h | h
  · exact hne (snoc_inj (h.eq_of_length (by simp))).2
  · exact hne (snoc_inj (h.eq_of_length (by simp))).2.symm

theorem expansion_root_eq {fsEx : Path → Bool} {rp k : Path} {n cn : String}
    {x : Path}
    (hancrp : ancClosedOn fsEx rp = true) (hanck : ancClosedOn fsEx k = true)
    (hfs : fsEx (rp ++ [n]) = false) (hfk : fsEx (k ++ [cn]) = false)
    (hux : Under (k ++ [cn]) x) (hsx : Under (rp ++ [n]) x) :
    k = rp ∧ cn = n := by
  rcases under_comparable _ _ x hux hsx with h | h
  · by_cases he : k ++ [cn] = rp ++ [n]
    · exact snoc_inj he
    · have hlt := (strictUnder_iff.mpr ⟨h, he⟩).length_lt
      have hu : Under (k ++ [cn]) rp :=
        under_of_under_le h under_snoc_self (by simp at hlt ⊢; omega)
      have := ancClosedOn_spec hancrp hu
      rw [hfk] at this
      cases this
  · by_cases he : rp ++ [n] = k ++ [cn]
    · have := snoc_inj he
      exact ⟨this.1.symm, this.2.symm⟩
    · have hlt := (strictUnder_iff.mpr ⟨h, he⟩).length_lt
      have hu : Under (rp ++ [n]) k :=
        under_of_under_le h under_snoc_self (by simp at hlt ⊢; omega)
      have := ancClosedOn_spec hanck hu
      rw [hfs] at this
      cases this

theorem no_expansion_over_existing {fsEx : Path → Bool} {rp k : Path}
    {n cn : String}
    (hancrp : ancClosedOn fsEx rp = true)
    (hfs : fsEx (rp ++ [n]) = true) (hfk : fsEx (k ++ [cn]) = false)
    (hux : Under (k ++ [cn]) (rp ++ [n])) : False := by
  by_cases he : k ++ [cn] = rp ++ [n]
  · rw [he, hfs] at hfk
    cases hfk
  · have hlt := (strictUnder_iff.mpr ⟨hux, he⟩).length_lt
    have hu : Under (k ++ [cn]) rp :=
      under_of_under_le hux under_snoc_self (by simp at hlt ⊢; omega)
    have := ancClosedOn_spec hancrp hu
    rw [hfk] at this
    cases this

theorem cleanC5_of_processed {entries tgt : Tree} {fsEx : Path → Bool}
    {pr : List Path} {ops : List Op} {rp : Path} {n : String}
    (hrun : syncRun entries fsEx pr tgt = some ops)
    (hanc : ∀ b ∈ tgt, ancClosedOn fsEx b.1 = true)
    (hancrp : ancClosedOn fsEx rp = true)
    (hmiss : fsEx (rp ++ [n]) = false)
    (hin : rp ∈ pr) :
    (∀ x, Op.create x ∈ ops → ¬ Under (rp ++ [n]) x) ∧
    (∀ x, Op.copy x ∈ ops → ¬ StrictUnder (rp ++ [n]) x) := by
  constructor
  · intro x hx hunder
    obtain ⟨k, refRs', c, rs', hb, hnp, _, _, hfk, hux⟩ :=
      syncRun_create_mem tgt pr ops hrun x hx
    obtain ⟨rfl, _⟩ :=
      expansion_root_eq hancrp (hanc _ hb) hmiss hfk hux hunder
    exact hnp hin
  · intro x hx hunder
    rcases syncRun_copy_mem tgt pr ops hrun x hx with
      ⟨k, rs', tr', refRs', hb, _, rfl, _, _⟩ |
      ⟨k, refRs', c, rs', hb, hnp, _, _, hfk, hux⟩
    · have hlen : (rp ++ [n]).length < (k ++ [tr'.name]).length :=
        hunder.length_lt
      have hk : Under (rp ++ [n]) k :=
        under_of_under_le hunder.toUnder under_snoc_self
          (by simp at hlen ⊢; omega)
      have := ancClosedOn_spec (hanc _ hb) hk
      rw [hmiss] at this
      cases this
    · obtain ⟨rfl, _⟩ :=
        expansion_root_eq hancrp (hanc _ hb) hmiss hfk hux hunder.toUnder
      exact hnp hin

theorem expandMissing_paths {e : Tree} {fsEx : Path → Bool} {rp : Path}
    {rs : List Record} {l : List Op} (h : expandMissing e fsEx rp rs = some l) :
    ∀ op ∈ l, ∃ c ∈ rs, fsEx (rp ++ [c.name]) = false ∧
      Under (rp ++ [c.name]) (pathOf op) := by
  intro op hop
  obtain ⟨c, hc, hfc, lc, hlc, hin⟩ := expandMissing_mem rs l h op hop
  exact ⟨c, hc, hfc, (copy_record_shape _ e c rp lc hlc op hin).1⟩

theorem name_ne_of_nodup_split {pre post : List Record} {r : Record}
    (h : (((pre ++ r :: post).map Record.name)).Nodup) :
    (∀ c ∈ pre, c.name ≠ r.name) ∧ (∀ c ∈ post, c.name ≠ r.name) := by
  rw [List.map_append, List.map_cons] at h
  rw [List.nodup_middle] at h
  rw [List.nodup_cons] at h
  have hni := h.1
  constructor
  · intro c hc he
    exact hni (List.mem_append.mpr (Or.inl (he ▸ List.mem_map_of_mem _ hc)))
  · intro c hc he
    exact hni (List.mem_append.mpr (Or.inr (he ▸ List.mem_map_of_mem _ hc)))

theorem expandMissing_split {e : Tree} {fsEx : Path → Bool} {rp : Path}
    {pre post : List Record} {r : Record} {exp : List Op}
    (hmiss : fsEx (rp ++ [r.name]) = false)
    (h : expandMissing e fsEx rp (pre ++ r :: post) = some exp) :
    ∃ A1 E A2, expandMissing e fsEx rp pre = some A1 ∧
      copy_record (e.length + 1) e r rp = some E ∧
      expandMissing e fsEx rp post = some A2 ∧
      exp = A1 ++ (E.reverse ++ A2) := by
  rw [expandMissing_append] at h
  simp only [Option.bind_eq_some, Option.map_eq_some'] at h
  obtain ⟨A1, hA1, rest, hrest, rfl⟩ := h
  rw [expandMissing, if_neg (by simp [hmiss])] at hrest
  simp only [Option.bind_eq_some, Option.map_eq_some'] at hrest
  obtain ⟨E, hE, A2, hA2, rfl⟩ := hrest
  exact ⟨A1, E, A2, hA1, hE, hA2, rfl⟩

theorem split_unique {α : Type} {l m1 m2 X Y : List α} {x : α}
    (h1 : l = X ++ x :: Y) (h2 : l = m1 ++ x :: m2)
    (hX : x ∉ X) (hY : x ∉ Y) : m1 = X ∧ m2 = Y := by
  subst h1
  rcases append_split_cases h2 with ⟨a, hxs, _⟩ | ⟨a, hm1, hys⟩
  · refine absurd ?_ hX
    rw [hxs]
    exact List.mem_append.mpr (Or.inr (List.mem_cons_self ..))
  · cases a with
    | nil =>
      refine ⟨by simpa using hm1, ?_⟩
      simp only [List.nil_append] at hys
      injection hys with _ h
      exact h.symm
    | cons y a' =>
      rw [List.cons_append] at hys
      injection hys with hxy hrest
      refine absurd ?_ hY
      rw [hrest]
      exact List.mem_append.mpr (Or.inr (List.mem_cons_self ..))

theorem count_eq_one_of_split {α : Type} [DecidableEq α] {l X Y : List α} {x : α}
    (h : l = X ++ x :: Y) (hX : x ∉ X) (hY : x ∉ Y) : l.count x = 1 := by
  subst h
  rw [List.count_append, List.count_cons,
    List.count_eq_zero.mpr hX, List.count_eq_zero.mpr hY]
  simp

theorem syncRun_create_first {entries : Tree} {fsEx : Path → Bool}
    {rp : Path} {refRs : List Record} {r : Record}
    (hL : lookupA entries rp = some refRs) (hr : r ∈ refRs)
    (hdir : r.hash = none) (hmiss : fsEx (rp ++ [r.name]) = false)
    (hancrp : ancClosedOn fsEx rp = true)
    (hrefnd : (refRs.map Record.name).Nodup) :
    ∀ (tgt : Tree) (pr : List Path) (ops : List Op),
      (∀ b ∈ tgt, ancClosedOn fsEx b.1 = true) →
      (∀ b ∈ tgt, ∀ tr ∈ b.2, fsEx (b.1 ++ [tr.name]) = true) →
      rp ∉ pr →
      (∃ rs', (rp, rs') ∈ tgt ∧ rs' ≠ []) →
      syncRun entries fsEx pr tgt = some ops →
      ops.count (Op.create (rp ++ [r.name])) = 1 ∧
      (∀ x, StrictUnder (rp ++ [r.name]) x →
        ∀ m1 m2, ops = m1 ++ Op.create (rp ++ [r.name]) :: m2 →
          Op.create x ∉ m2 ∧ Op.copy x ∉ m2) := by
  intro tgt
  induction tgt with
  | nil =>
    rintro pr ops _ _ _ ⟨rs', hb, _⟩ _
    simp at hb
  | cons b rest ih =>
    obtain ⟨k, vs⟩ := b
    rintro pr ops hanc hrecs hnp ⟨rs', hbrs, hrs'⟩ hrun
    have hancrest : ∀ b ∈ rest, ancClosedOn fsEx b.1 = true :=
      fun b hb => hanc b (List.mem_cons_of_mem _ hb)
    have hrecsrest : ∀ b ∈ rest, ∀ tr ∈ b.2, fsEx (b.1 ++ [tr.name]) = true :=
      fun b hb => hrecs b (List.mem_cons_of_mem _ hb)
    by_cases hk : k = rp
    · subst hk
      cases vs with
      | nil =>
        rw [syncRun_cons_emptyRs] at hrun
        have hbr : (k, rs') ∈ rest := by
          rcases List.mem_cons.mp hbrs with he | h
          · injection he with _ h2
            exact absurd h2 hrs'
          · exact h
        exact ih pr ops hancrest hrecsrest hnp ⟨rs', hbr, hrs'⟩ hrun
      | cons tr trs =>
        rw [syncRun_cons_fresh tr trs rest hL hnp] at hrun
        simp only [Option.bind_eq_some, Option.map_eq_some'] at hrun
        obtain ⟨exp, hexp, os, hos, rfl⟩ := hrun
        obtain ⟨pre, post, hsplit⟩ := List.append_of_mem hr
        obtain ⟨A1, E, A2, hA1, hE, hA2, hexpeq⟩ :=
          expandMissing_split hmiss (hsplit ▸ hexp)
        obtain ⟨tail, hEeq, htail⟩ := copy_record_dir_struct hdir hE
        obtain ⟨hpre, hpost⟩ := name_ne_of_nodup_split (hsplit ▸ hrefnd)
        have hclean :=
          cleanC5_of_processed (n := r.name) hos hancrest hancrp hmiss
            (List.mem_cons_self ..)
        have hX : Op.create (k ++ [r.name]) ∉ A1 ++ tail.reverse := by
          intro hmem
          rcases List.mem_append.mp hmem with hm | hm
          · obtain ⟨c, hc, _, hu⟩ := expandMissing_paths hA1 _ hm
            exact sibling_not_under (hpre c hc) (by simpa [pathOf] using hu)
              (Under.rfl _)
          · have hst := (htail _ (List.mem_reverse.mp hm)).1
            have hlt := hst.length_lt
            simp [pathOf] at hlt
        have hY : Op.create (k ++ [r.name]) ∉
            A2 ++ ((perRecordOp refRs k tr ++
              trs.flatMap (perRecordOp refRs k)) ++ os) := by
          intro hmem
          rcases List.mem_append.mp hmem with hm | hm
          · obtain ⟨c, hc, _, hu⟩ := expandMissing_paths hA2 _ hm
            exact sibling_not_under (hpost c hc) (by simpa [pathOf] using hu)
              (Under.rfl _)
          · rcases List.mem_append.mp hm with hm2 | hm2
            · rcases List.mem_append.mp hm2 with hm3 | hm3
              · exact perRecordOp_no_create hm3
              · obtain ⟨tr', _, hm4⟩ := List.mem_flatMap.mp hm3
                exact perRecordOp_no_create hm4
            · exact hclean.1 _ hm2 (Under.rfl _)
        have hdecomp :
            (exp ++ (perRecordOp refRs k tr ++
              trs.flatMap (perRecordOp refRs k))) ++ os =
            (A1 ++ tail.reverse) ++ Op.create (k ++ [r.name]) ::
              (A2 ++ ((perRecordOp refRs k tr ++
                trs.flatMap (perRecordOp refRs k)) ++ os)) := by
          rw [hexpeq, hEeq]
          simp [List.append_assoc]
        refine ⟨count_eq_one_of_split hdecomp hX hY, ?_⟩
        intro x hsx m1 m2 hsplit2
        obtain ⟨_, rfl⟩ := split_unique hdecomp hsplit2 hX hY
        constructor
        · intro hmem
          rcases List.mem_append.mp hmem with hm | hm
          · obtain ⟨c, hc, _, hu⟩ := expandMissing_paths hA2 _ hm
            exact sibling_not_under (hpost c hc) (by simpa [pathOf] using hu)
              hsx.toUnder
          · rcases List.mem_append.mp hm with hm2 | hm2
            · rcases List.mem_append.mp hm2 with hm3 | hm3
              · exact perRecordOp_no_create hm3
              · obtain ⟨tr', _, hm4⟩ := List.mem_flatMap.mp hm3
                exact perRecordOp_no_create hm4
            · exact hclean.1 _ hm2 hsx.toUnder
        · intro hmem
          rcases List.mem_append.mp hmem with hm | hm
          · obtain ⟨c, hc, _, hu⟩ := expandMissing_paths hA2 _ hm
            exact sibling_not_under (hpost c hc) (by simpa [pathOf] using hu)
              hsx.toUnder
          · rcases List.mem_append.mp hm with hm2 | hm2
            · rcases List.mem_append.mp hm2 with hm3 | hm3
              · rcases perRecordOp_cases hm3 with hc | hc
                · simp at hc
                · simp only [Op.copy.injEq] at hc
                  have hlt := hsx.length_lt
                  rw [hc] at hlt
                  simp at hlt
              · obtain ⟨tr', _, hm4⟩ := List.mem_flatMap.mp hm3
                rcases perRecordOp_cases hm4 with hc | hc
                · simp at hc
                · simp only [Op.copy.injEq] at hc
                  have hlt := hsx.length_lt
                  rw [hc] at hlt
                  simp at hlt
            · exact hclean.2 _ hm2 hsx
    · have hbr : (rp, rs') ∈ rest := by
        rcases List.mem_cons.mp hbrs with he | h
        · injection he with h1 _
          exact absurd h1.symm hk
        · exact h
      have hanck : ancClosedOn fsEx k = true := hanc _ (List.mem_cons_self ..)
      rcases hLk : lookupA entries k with _ | refRsk
      · rw [syncRun_cons_nolookup vs rest hLk] at hrun
        obtain ⟨os, hos, rfl⟩ := Option.map_eq_some'.mp hrun
        have hih := ih pr os hancrest hrecsrest hnp ⟨rs', hbr, hrs'⟩ hos
        have hblk : Op.create (rp ++ [r.name]) ∉
            vs.map (fun tr => Op.del (k ++ [tr.name])) := by
          intro hm
          simp at hm
        refine ⟨?_, ?_⟩
        · simp [List.count_append, List.count_eq_zero.mpr hblk, hih.1]
        · intro x hsx m1 m2 hsplit2
          rcases append_split_cases hsplit2 with ⟨a, hxs, _⟩ | ⟨a, _, hys⟩
          · refine absurd ?_ hblk
            rw [hxs]
            exact List.mem_append.mpr (Or.inr (List.mem_cons_self ..))
          · exact hih.2 x hsx a m2 hys
      · by_cases hin : k ∈ pr
        · rw [syncRun_cons_done vs rest hLk hin] at hrun
          obtain ⟨os, hos, rfl⟩ := Option.map_eq_some'.mp hrun
          have hih := ih pr os hancrest hrecsrest hnp ⟨rs', hbr, hrs'⟩ hos
          have hblk : Op.create (rp ++ [r.name]) ∉
              vs.flatMap (perRecordOp refRsk k) := by
            intro hm
            obtain ⟨tr', _, hm2⟩ := List.mem_flatMap.mp hm
            exact perRecordOp_no_create hm2
          refine ⟨?_, ?_⟩
          · simp [List.count_append, List.count_eq_zero.mpr hblk, hih.1]
          · intro x hsx m1 m2 hsplit2
            rcases append_split_cases hsplit2 with ⟨a, hxs, _⟩ | ⟨a, _, hys⟩
            · refine absurd ?_ hblk
              rw [hxs]
              exact List.mem_append.mpr (Or.inr (List.mem_cons_self ..))
            · exact hih.2 x hsx a m2 hys
        · cases vs with
          | nil =>
            rw [syncRun_cons_emptyRs] at hrun
            exact ih pr ops hancrest hrecsrest hnp ⟨rs', hbr, hrs'⟩ hrun
          | cons tr trs =>
            rw [syncRun_cons_fresh tr trs rest hLk hin] at hrun
            simp only [Option.bind_eq_some, Option.map_eq_some'] at hrun
            obtain ⟨exp, hexp, os, hos, rfl⟩ := hrun
            have hnp' : rp ∉ k :: pr := by
              intro hm
              rcases List.mem_cons.mp hm with he | h
              · exact hk he.symm
              · exact hnp h
            have hih := ih (k :: pr) os hancrest hrecsrest hnp'
              ⟨rs', hbr, hrs'⟩ hos
            have hblk : Op.create (rp ++ [r.name]) ∉
                exp ++ (perRecordOp refRsk k tr ++
                  trs.flatMap (perRecordOp refRsk k)) := by
              intro hm
              rcases List.mem_append.mp hm with hm2 | hm2
              · obtain ⟨c, hc, hfc, hu⟩ := expandMissing_paths hexp _ hm2
                have hkr := expansion_root_eq hancrp hanck hmiss hfc
                  (by simpa [pathOf] using hu) (Under.rfl _)
                exact hk hkr.1
              · rcases List.mem_append.mp hm2 with hm3 | hm3
                · exact perRecordOp_no_create hm3
                · obtain ⟨tr', _, hm4⟩ := List.mem_flatMap.mp hm3
                  exact perRecordOp_no_create hm4
            have hb1 : Op.create (rp ++ [r.name]) ∉ exp :=
              fun hm => hblk (List.mem_append.mpr (Or.inl hm))
            have hb2 : Op.create (rp ++ [r.name]) ∉ perRecordOp refRsk k tr :=
              fun hm => hblk (List.mem_append.mpr (Or.inr
                (List.mem_append.mpr (Or.inl hm))))
            have hb3 : Op.create (rp ++ [r.name]) ∉
                trs.flatMap (perRecordOp refRsk k) :=
              fun hm => hblk (List.mem_append.mpr (Or.inr
                (List.mem_append.mpr (Or.inr hm))))
            refine ⟨?_, ?_⟩
            · simp [List.count_append, List.count_eq_zero.mpr hb1,
                List.count_eq_zero.mpr hb2, List.count_eq_zero.mpr hb3, hih.1]
            · intro x hsx m1 m2 hsplit2
              rcases append_split_cases hsplit2 with ⟨a, hxs, _⟩ | ⟨a, _, hys⟩
              · refine absurd ?_ hblk
                rw [hxs]
                exact List.mem_append.mpr (Or.inr (List.mem_cons_self ..))
              · exact hih.2 x hsx a m2 hys

/-! ## Lemmas: snapshot round-trip -/

theorem decCount_enc {α : Type} (dec : List Tok → Option (α × List Tok))
    (enc : α → List Tok)
    (hdec : ∀ (a : α) (rest : List Tok), dec (enc a ++ rest) = some (a, rest)) :
    ∀ (xs : List α) (rest : List Tok),
      decCount dec xs.length (xs.flatMap enc ++ rest) = some (xs, rest) := by
  intro xs
  induction xs with
  | nil => intro rest; rfl
  | cons x xs ih =>
    intro rest
    rw [List.flatMap_cons, List.append_assoc, List.length_cons]
    simp only [decCount, hdec x, Option.some_bind, ih rest, Option.map_some']

theorem map_str_eq_flatMap (p : Path) :
    p.map Tok.str = p.flatMap (fun s => [Tok.str s]) := by
  induction p <;> simp_all

theorem decPath_enc (p : Path) (rest : List Tok) :
    decPath (encPath p ++ rest) = some (p, rest) := by
  unfold decPath encPath
  rw [map_str_eq_flatMap]
  simp only [List.cons_append, decNum, Option.some_bind]
  exact decCount_enc decStr (fun s => [Tok.str s]) (fun s rest => rfl) p rest

theorem decRecord_enc (r : Record) (rest : List Tok) :
    decRecord (encRecord r ++ rest) = some (r, rest) := by
  rcases r with ⟨n, _ | h⟩ <;>
    simp [encRecord, decRecord, decStr, decNum]

theorem decBinding_enc (b : Path × List Record) (rest : List Tok) :
    decBinding (encBinding b ++ rest) = some (b, rest) := by
  obtain ⟨k, rs⟩ := b
  unfold decBinding encBinding encChildren
  rw [List.append_assoc, decPath_enc]
  simp only [Option.some_bind, List.cons_append, decNum]
  rw [decCount_enc decRecord encRecord decRecord_enc rs rest]
  rfl

/-! ## The claims -/

/-- C1: the spec's end-to-end scenario — reference tree
`{"": [a (dir)], "a": [f.txt (hash H1)]}` against a target directory that is
empty on disk (target model `{"": []}`, nothing exists under the target root)
— is expected to output ``create `a` `` then ``copy `a/f.txt` ``.  The code
emits nothing: the once-per-parent expansion sits inside the per-target-record
loop, and the empty target has no records to iterate, so `sync_directory`
writes an empty operation list.  This theorem evaluates the embedded code at
that failing input. -/
theorem C1_empty_target_emits_nothing :
    sync_directory [([], [⟨"a", none⟩]), (["a"], [⟨"f.txt", some "H1"⟩])]
      [([], [])] (fun _ => false) = some [] := by decide

/-- C3: `main` resolves the snapshot path from `matches.value_of("state")`,
but the declared argument is named `reference-state`, not `state`, so the
lookup always yields `None` and the default path is always used — the
supplied `--reference-state`/`-r` value is ignored in both modes.  This
theorem evaluates the embedded resolution logic: for every set of matched
arguments (whatever `reference_state` holds) the result is the default. -/
theorem C3_reference_state_ignored (m : CmdMatches) (d : String) :
    resolve_state_path m d = d := rfl

/-- C2, counterexample to the claim as stated: with reference `{"": []}` and
the target map's bindings iterated as `{"d": [x.txt]}` before `{"": [d]}` — a
legal iteration order for the unordered hash map — the emitted list is
``delete `d` `` before ``delete `d/x.txt` ``: the directory's delete comes
before its descendant's, so the nested-delete ordering does not hold in every
run. -/
theorem C2_counterexample :
    emittedOps [([], [])] [(["d"], [⟨"x.txt", some "H"⟩]), ([], [⟨"d", none⟩])]
      (fun _ => true) =
      some [Op.del ["d"], Op.del ["d", "x.txt"]] ∧
    ¬ DeleteOrderOK [Op.del ["d"], Op.del ["d", "x.txt"]] := by
  refine ⟨by decide, fun h => ?_⟩
  have := h ["d"] ["d", "x.txt"] ⟨["x.txt"], by simp, rfl⟩ []
    [Op.del ["d", "x.txt"]] rfl
  simp at this

/-- C2 (amended): in every run in which the target map's bindings happen to be
iterated with no binding ever preceded by a binding for one of its strict
descendants (ancestors first — e.g. the order the directory walk produces),
the emitted list deletes every strict descendant before its ancestor: after
the final reversal, whenever both a path and a strict descendant of it receive
a delete, the descendant's delete comes first.  Because the map's iteration
order is unspecified, runs that iterate a descendant's binding first emit the
deletes in the opposite, unsafe order (see the counterexample). -/
theorem C2_nested_delete_order (entries tgt : Tree) (fsEx : Path → Bool)
    (ops : List Op)
    (horder : tgt.Pairwise (fun a b => ¬ StrictUnder b.1 a.1))
    (hrun : syncRun entries fsEx [] tgt = some ops) :
    DeleteOrderOK ops.reverse := by
  intro p q hpq l1 l2 hsplit hq
  have hops : ops = l2.reverse ++ Op.del p :: l1.reverse := by
    have h1 : ops = (l1 ++ Op.del p :: l2).reverse := by
      rw [← hsplit, List.reverse_reverse]
    rw [h1]
    simp
  exact syncRun_del_order hpq tgt [] ops horder hrun l2.reverse l1.reverse hops
    (List.mem_reverse.mpr hq)

/-- C2, witness: the counterexample's trees iterated ancestors-first emit
``delete `d/x.txt` `` before ``delete `d` ``, and the theorem applies. -/
theorem C2_witness :
    ([(([] : Path), [(⟨"d", none⟩ : Record)]),
        (["d"], [⟨"x.txt", some "H"⟩])] : Tree).Pairwise
      (fun a b => ¬ StrictUnder b.1 a.1) ∧
    DeleteOrderOK ([Op.del ["d"], Op.del ["d", "x.txt"]] : List Op).reverse :=
  ⟨by decide,
    C2_nested_delete_order [([], [])]
      [([], [⟨"d", none⟩]), (["d"], [⟨"x.txt", some "H"⟩])] (fun _ => true)
      [Op.del ["d"], Op.del ["d", "x.txt"]] (by decide) (by decide)⟩

/-- C4, counterexample to the claim as stated: when the root does not exist
the walk yields exactly one error item, which `.skip(1)` drops unconditionally,
so `map_directory` succeeds with the empty tree instead of returning an
`IoError`. -/
theorem C4_counterexample :
    map_directory [Except.error "root does not exist"] (fun _ => Except.ok "H") =
      .ok [([], [])] := rfl

/-- C4 (amended): `map_directory` returns an `IoError` result whenever an
entry other than the root fails to be read during traversal (provided the
directory entries before the failure are well-parented, as a real depth-first
walk guarantees).  An error on the root itself — missing or unreadable root —
is silently dropped by `.skip(1)` and yields a successful empty tree, and a
failure while hashing a file's content terminates abnormally (the result of
`calculate_hash` is `unwrap`ped inside the rayon map) instead of yielding an
`IoError`. -/
theorem C4_io_error_on_traversal (w0 : Except String WalkEntry)
    (pre : List WalkEntry) (e : String) (post : List (Except String WalkEntry))
    (hashFn : String → Except String String)
    (hpar : dirsParented [] pre = true) :
    map_directory (w0 :: (pre.map Except.ok ++ Except.error e :: post)) hashFn =
        .ioError e ∧
    (∀ (e' : String) (hashFn' : String → Except String String),
        map_directory [Except.error e'] hashFn' = .ok [([], [])]) ∧
    map_directory [Except.ok ⟨"root", [], true, "t"⟩,
        Except.ok ⟨"f.txt", [], false, "t/f.txt"⟩]
      (fun _ => Except.error "denied") = .panic := by
  refine ⟨?_, fun e' hashFn' => rfl, rfl⟩
  unfold map_directory
  rw [show (w0 :: (pre.map Except.ok ++ Except.error e :: post)).drop 1 =
      pre.map Except.ok ++ Except.error e :: post from rfl,
    List.foldl_append]
  obtain ⟨recs', files', hfold⟩ :=
    trav_ok pre [] [([], [])] [] hpar (by simp [lookupA]) (by simp)
  rw [hfold, List.foldl_cons,
    show travStep (.normal recs' files') (.error e) = .ioFail e from rfl,
    foldl_travStep_ioFail]

/-- C4, witness: a concrete run where a non-root entry fails mid-walk and the
result is exactly that `IoError`. -/
theorem C4_witness :
    dirsParented [] [⟨"d", [], true, "t/d"⟩] = true ∧
    map_directory (Except.ok ⟨"root", [], true, "t"⟩ ::
        ([(⟨"d", [], true, "t/d"⟩ : WalkEntry)].map Except.ok ++
          Except.error "boom" :: []))
      (fun _ => Except.ok "H") = .ioError "boom" :=
  ⟨by decide,
    (C4_io_error_on_traversal (Except.ok ⟨"root", [], true, "t"⟩)
      [⟨"d", [], true, "t/d"⟩] "boom" [] (fun _ => Except.ok "H") (by decide)).1⟩

/-- C8: for every Tree Model, serializing to the persisted stream and
deserializing that stream yields the model back unchanged — the same bindings
with the same names and present/absent hashes (the codec is modelled from the
spec, since serialization is performed by the external bincode crate; the
stream follows bincode's length-prefixed layout). -/
theorem C8_serialize_roundtrip (t : Tree) : deserialize (serialize t) = some t := by
  unfold serialize deserialize
  simp only [decNum, Option.some_bind]
  rw [← List.append_nil (t.flatMap encBinding),
    decCount_enc decBinding encBinding decBinding_enc t []]
  rfl

/-- C9: every Tree Model that `map_directory` successfully returns satisfies
both invariants: the root key (the empty path) is present even for an empty
directory, and every directory record's name joined to its parent path is
itself a key of the mapping. -/
theorem C9_tree_invariants (walk : List (Except String WalkEntry))
    (hashFn : String → Except String String) (t : Tree)
    (h : map_directory walk hashFn = .ok t) :
    (lookupA t []).isSome = true ∧
    ∀ k vs, lookupA t k = some vs → ∀ r ∈ vs, r.hash = none →
      (lookupA t (k ++ [r.name])).isSome = true := by
  unfold map_directory at h
  cases hT : (walk.drop 1).foldl travStep (.normal [([], [])] []) with
  | ioFail e => rw [hT] at h; simp at h
  | panicked => rw [hT] at h; simp at h
  | normal recs files =>
    simp only [hT] at h
    rcases hH : hashFiles hashFn files with _ | frs
    · simp only [hH] at h
      exact BuildResult.noConfusion h
    · simp only [hH] at h
      rcases hF : frs.foldlM (fun recs fr => pushRec recs fr.1 fr.2) recs
        with _ | recs2
      · simp only [hF] at h
        exact BuildResult.noConfusion h
      · simp only [hF, BuildResult.ok.injEq] at h
        subst h
        exact foldlM_pushRec_inv frs recs recs2 (hashFiles_all_some files frs hH)
          (phase1_inv (walk.drop 1) [([], [])] [] treeInv_init recs files hT) hF

/-- C9, witness: a concrete successful build (root, one directory `a`, one
file `a/f.txt`) on which the theorem applies. -/
theorem C9_witness :
    map_directory [Except.ok ⟨"root", [], true, "t"⟩,
        Except.ok ⟨"a", [], true, "t/a"⟩,
        Except.ok ⟨"f.txt", ["a"], false, "t/a/f.txt"⟩]
      (fun _ => Except.ok "H1") =
      .ok [([], [⟨"a", none⟩]), (["a"], [⟨"f.txt", some "H1"⟩])] ∧
    (lookupA [([], [⟨"a", none⟩]), (["a"], [⟨"f.txt", some "H1"⟩])] []).isSome
        = true ∧
    ∀ k vs, lookupA [([], [⟨"a", none⟩]), (["a"], [⟨"f.txt", some "H1"⟩])] k
        = some vs → ∀ r ∈ vs, r.hash = none →
      (lookupA [([], [⟨"a", none⟩]), (["a"], [⟨"f.txt", some "H1"⟩])]
        (k ++ [r.name])).isSome = true :=
  ⟨by decide,
    C9_tree_invariants
      [Except.ok ⟨"root", [], true, "t"⟩, Except.ok ⟨"a", [], true, "t/a"⟩,
        Except.ok ⟨"f.txt", ["a"], false, "t/a/f.txt"⟩]
      (fun _ => Except.ok "H1")
      [([], [⟨"a", none⟩]), (["a"], [⟨"f.txt", some "H1"⟩])] (by decide)⟩

/-- C10: the once-per-parent expansion of missing reference entries runs for a
parent binding exactly when that parent's target child list is non-empty: a
binding with an empty child list contributes nothing to the run — neither
operations nor a `processed_parents` mark — even when the parent key is
present in both models, while the first record of a non-empty binding (parent
found in the reference, not yet processed) triggers the expansion before any
per-record operations. -/
theorem C10_expansion_iff_nonempty_children (e : Tree) (fsEx : Path → Bool)
    (pr : List Path) (rp : Path) (rest : Tree) :
    (syncRun e fsEx pr ((rp, []) :: rest) = syncRun e fsEx pr rest) ∧
    (∀ refRs tr trs, lookupA e rp = some refRs → rp ∉ pr →
      syncRun e fsEx pr ((rp, tr :: trs) :: rest) =
        (expandMissing e fsEx rp refRs).bind
          (fun exp =>
            (syncRun e fsEx (rp :: pr) rest).map
              (fun os =>
                (exp ++ (perRecordOp refRs rp tr ++
                  trs.flatMap (perRecordOp refRs rp))) ++ os))) :=
  ⟨syncRun_cons_emptyRs e fsEx pr rp rest,
    fun refRs tr trs hL hnin => syncRun_cons_fresh tr trs rest hL hnin⟩

/-- C10, witness: with reference `{"": [a (dir)], "a": []}` and an absent
child `a`, an empty target child list for the root emits nothing, while a
non-empty one triggers the expansion. -/
theorem C10_witness :
    lookupA [([], [⟨"a", none⟩]), (["a"], [])] [] = some [⟨"a", none⟩] ∧
    syncRun [([], [⟨"a", none⟩]), (["a"], [])] (fun _ => false) []
        [([], [⟨"b", some "H"⟩])] =
      (expandMissing [([], [⟨"a", none⟩]), (["a"], [])] (fun _ => false) []
          [⟨"a", none⟩]).bind
        (fun exp =>
          (syncRun [([], [⟨"a", none⟩]), (["a"], [])] (fun _ => false)
              ([] :: []) []).map
            (fun os =>
              (exp ++ (perRecordOp [⟨"a", none⟩] [] ⟨"b", some "H"⟩ ++
                ([] : List Record).flatMap (perRecordOp [⟨"a", none⟩] []))) ++
                os)) :=
  ⟨by decide,
    (C10_expansion_iff_nonempty_children
        [([], [⟨"a", none⟩]), (["a"], [])] (fun _ => false) [] [] []).2
      [⟨"a", none⟩] ⟨"b", some "H"⟩ [] (by decide) (by decide)⟩

/-- C5: for every reference subtree expanded because it is missing from the
target — a directory record `r` in the reference child list of a parent `rp`
whose target binding is non-empty, with the joined path absent on disk — the
emitted operation list contains the `create` of the subtree's own directory
before every `create`/`copy` for any strict descendant of it (and exactly
once), so executing the list top to bottom never hits a missing parent.  The
consistency hypotheses say that the target model and the live existence check
come from one filesystem — every target key and listed entry exists on disk
together with its ancestors — and that names within reference child lists are
unique, as `map_directory` guarantees. -/
theorem C5_create_before_subtree (entries tgt : Tree) (fsEx : Path → Bool)
    (ops : List Op) (rp : Path) (rs refRs : List Record) (r : Record)
    (hrun : syncRun entries fsEx [] tgt = some ops)
    (hanc : ∀ b ∈ tgt, ancClosedOn fsEx b.1 = true)
    (hrecs : ∀ b ∈ tgt, ∀ tr ∈ b.2, fsEx (b.1 ++ [tr.name]) = true)
    (hrefnames : ∀ b ∈ entries, (b.2.map Record.name).Nodup)
    (hb : (rp, rs) ∈ tgt) (hrs : rs ≠ [])
    (hL : lookupA entries rp = some refRs)
    (hr : r ∈ refRs) (hdir : r.hash = none)
    (hmiss : fsEx (rp ++ [r.name]) = false) :
    Op.create (rp ++ [r.name]) ∈ ops.reverse ∧
    ∀ x, StrictUnder (rp ++ [r.name]) x →
      ∀ m1 m2, ops.reverse = m1 ++ Op.create (rp ++ [r.name]) :: m2 →
        Op.create x ∉ m1 ∧ Op.copy x ∉ m1 := by
  have hancrp : ancClosedOn fsEx rp = true := hanc _ hb
  have hrefnd : (refRs.map Record.name).Nodup := hrefnames _ (lookupA_mem hL)
  have main := syncRun_create_first hL hr hdir hmiss hancrp hrefnd tgt [] ops
    hanc hrecs (by simp) ⟨rs, hb, hrs⟩ hrun
  constructor
  · rw [List.mem_reverse]
    have h0 := main.1
    by_contra hno
    rw [List.count_eq_zero.mpr hno] at h0
    simp at h0
  · intro x hsx m1 m2 hsplit
    have hops : ops = m2.reverse ++ Op.create (rp ++ [r.name]) :: m1.reverse := by
      have h1 : ops = (m1 ++ Op.create (rp ++ [r.name]) :: m2).reverse := by
        rw [← hsplit, List.reverse_reverse]
      rw [h1]
      simp
    have hcc := main.2 x hsx m2.reverse m1.reverse hops
    exact ⟨fun hm => hcc.1 (List.mem_reverse.mpr hm),
      fun hm => hcc.2 (List.mem_reverse.mpr hm)⟩

/-- C5, witness: reference `{"": [a (dir)], "a": [f.txt]}`, target root holding
only `x.txt`, with `a` absent on disk: the emitted list is
`delete x.txt, create a, copy a/f.txt`, and the theorem applies. -/
theorem C5_witness :
    syncRun [([], [⟨"a", none⟩]), (["a"], [⟨"f.txt", some "H1"⟩])]
        (fun p => decide (p = [] ∨ p = ["x.txt"])) []
        [([], [⟨"x.txt", some "H2"⟩])] =
      some [Op.copy ["a", "f.txt"], Op.create ["a"], Op.del ["x.txt"]] ∧
    (Op.create (["a"] : Path) ∈
      ([Op.copy ["a", "f.txt"], Op.create ["a"],
        Op.del ["x.txt"]] : List Op).reverse ∧
    ∀ x, StrictUnder (["a"] : Path) x →
      ∀ m1 m2, ([Op.copy ["a", "f.txt"], Op.create ["a"],
          Op.del ["x.txt"]] : List Op).reverse =
          m1 ++ Op.create (["a"] : Path) :: m2 →
        Op.create x ∉ m1 ∧ Op.copy x ∉ m1) :=
  ⟨by decide,
    C5_create_before_subtree
      [([], [⟨"a", none⟩]), (["a"], [⟨"f.txt", some "H1"⟩])]
      [([], [⟨"x.txt", some "H2"⟩])]
      (fun p => decide (p = [] ∨ p = ["x.txt"]))
      [Op.copy ["a", "f.txt"], Op.create ["a"], Op.del ["x.txt"]]
      [] [⟨"x.txt", some "H2"⟩] [⟨"a", none⟩] ⟨"a", none⟩
      (by decide) (by decide) (by decide) (by decide) (by decide) (by decide)
      (by decide) (by decide) (by decide) (by decide)⟩

/-- C6: if a path is a directory in one model and a file in the other — the
target record under parent `rp` and the reference child of the same name have
mismatched types — then one reconcile pass emits exactly one `delete` for that
path, and no `create` or `copy` for it.  Hypotheses: the run completed, and
the target model is the result of a live walk (unique keys, unique names per
child list, every key and listed entry existing on disk together with its
ancestors). -/
theorem C6_type_clash_single_delete (entries tgt : Tree) (fsEx : Path → Bool)
    (ops : List Op) (rp : Path) (rs : List Record) (tr : Record)
    (refRs : List Record) (r : Record)
    (hrun : syncRun entries fsEx [] tgt = some ops)
    (hkeys : (tgt.map Prod.fst).Nodup)
    (hnames : ∀ b ∈ tgt, (b.2.map Record.name).Nodup)
    (hanc : ∀ b ∈ tgt, ancClosedOn fsEx b.1 = true)
    (hrecs : ∀ b ∈ tgt, ∀ tr' ∈ b.2, fsEx (b.1 ++ [tr'.name]) = true)
    (hb : (rp, rs) ∈ tgt) (htr : tr ∈ rs)
    (hL : lookupA entries rp = some refRs)
    (hfind : refRs.find? (fun r' => r'.name == tr.name) = some r)
    (hmm : tr.hash.isNone ≠ r.hash.isNone) :
    ops.reverse.count (Op.del (rp ++ [tr.name])) = 1 ∧
    Op.create (rp ++ [tr.name]) ∉ ops.reverse ∧
    Op.copy (rp ++ [tr.name]) ∉ ops.reverse := by
  have hdh : delHere entries rp tr (rp ++ [tr.name]) = true := by
    simp [delHere, hL, hfind]
    exact hmm
  refine ⟨?_, ?_, ?_⟩
  · rw [List.count_reverse,
      syncRun_del_count (rp ++ [tr.name]) tgt [] ops hrun]
    exact delCount_eq_one tgt hkeys hnames hb htr rfl hdh
  · intro hmem
    rw [List.mem_reverse] at hmem
    obtain ⟨k, refRs', c, rs', hb', _, _, _, hfk, hu⟩ :=
      syncRun_create_mem tgt [] ops hrun _ hmem
    exact no_expansion_over_existing (hanc _ hb) (hrecs _ hb tr htr) hfk hu
  · intro hmem
    rw [List.mem_reverse] at hmem
    rcases syncRun_copy_mem tgt [] ops hrun _ hmem with
      ⟨k, rs2, tr2, refRs2, hb2, htr2, hx2, hl2, hpm2⟩ |
      ⟨k, refRs', c, rs', hb', _, _, _, hfk, hu⟩
    · obtain ⟨hkeq, hneq⟩ := snoc_inj hx2
      subst hkeq
      have hrseq : rs2 = rs := by
        have hpair := List.inj_on_of_nodup_map hkeys hb2 hb rfl
        injection hpair
      subst hrseq
      have htreq : tr2 = tr :=
        List.inj_on_of_nodup_map (hnames _ hb) htr2 htr hneq.symm
      rw [htreq] at hpm2
      rw [hL] at hl2
      injection hl2 with hre
      subst hre
      have hcond : (tr.hash.isNone != r.hash.isNone) = true := by
        simpa using hmm
      simp only [perRecordOp, hfind] at hpm2
      rw [if_pos hcond] at hpm2
      simp at hpm2
    · exact no_expansion_over_existing (hanc _ hb) (hrecs _ hb tr htr) hfk hu

/-- C6, witness: reference lists `a` as a directory, the target has `a` as a
file; the pass emits exactly `delete a` and nothing else for `a`. -/
theorem C6_witness :
    syncRun [([], [⟨"a", none⟩])] (fun p => decide (p = [] ∨ p = ["a"])) []
        [([], [⟨"a", some "H"⟩])] = some [Op.del ["a"]] ∧
    (([Op.del ["a"]] : List Op).reverse.count (Op.del (["a"] : Path)) = 1 ∧
      Op.create (["a"] : Path) ∉ ([Op.del ["a"]] : List Op).reverse ∧
      Op.copy (["a"] : Path) ∉ ([Op.del ["a"]] : List Op).reverse) :=
  ⟨by decide,
    C6_type_clash_single_delete [([], [⟨"a", none⟩])] [([], [⟨"a", some "H"⟩])]
      (fun p => decide (p = [] ∨ p = ["a"])) [Op.del ["a"]]
      [] [⟨"a", some "H"⟩] ⟨"a", some "H"⟩ [⟨"a", none⟩] ⟨"a", none⟩
      (by decide) (by decide) (by decide) (by decide) (by decide) (by decide)
      (by decide) (by decide) (by decide) (by decide)⟩

/-- C7: reconciling a directory against the Tree Model just built from it
yields the empty operation list: if every target binding's child list is found
unchanged by reference lookup (the fresh walk yields the identical model),
names within each child list are unique (as a directory listing guarantees),
and every listed entry exists on disk, the emitted list is empty. -/
theorem C7_snapshot_reconcile_idempotent (entries tgt : Tree)
    (fsEx : Path → Bool)
    (hsame : ∀ b ∈ tgt, lookupA entries b.1 = some b.2)
    (hnames : ∀ b ∈ tgt, (b.2.map Record.name).Nodup)
    (hex : ∀ b ∈ tgt, ∀ tr ∈ b.2, fsEx (b.1 ++ [tr.name]) = true) :
    emittedOps entries tgt fsEx = some [] := by
  have main : ∀ sub : Tree, (∀ b ∈ sub, b ∈ tgt) →
      ∀ pr, syncRun entries fsEx pr sub = some [] := by
    intro sub
    induction sub with
    | nil => intro _ pr; rfl
    | cons b rest ih =>
      obtain ⟨rp, rs⟩ := b
      intro hsub pr
      have hb : (rp, rs) ∈ tgt := hsub _ (List.mem_cons_self ..)
      have hL : lookupA entries rp = some rs := hsame _ hb
      have hrest := fun pr' => ih (fun x hx => hsub x (List.mem_cons_of_mem _ hx)) pr'
      by_cases hin : rp ∈ pr
      · rw [syncRun_cons_done rs rest hL hin, hrest pr,
          flatMap_perRecordOp_self (hnames _ hb) rs (fun x hx => hx)]
        rfl
      · cases rs with
        | nil => rw [syncRun_cons_emptyRs]; exact hrest pr
        | cons tr trs =>
          rw [syncRun_cons_fresh tr trs rest hL hin,
            expandMissing_all_exist (tr :: trs) (hex _ hb), hrest (rp :: pr),
            perRecordOp_self
              (find?_name_self (hnames _ hb) (List.mem_cons_self ..)),
            flatMap_perRecordOp_self (hnames _ hb) trs
              (fun x hx => List.mem_cons_of_mem _ hx)]
          rfl
  rw [emittedOps, main tgt (fun b hb => hb) []]
  rfl

/-- C7, witness: a concrete model (root containing directory `a`, which is
empty) reconciled against itself with everything on disk. -/
theorem C7_witness :
    (∀ b ∈ [(([] : Path), [(⟨"a", none⟩ : Record)]), (["a"], [])],
      lookupA [(([] : Path), [(⟨"a", none⟩ : Record)]), (["a"], [])] b.1
        = some b.2) ∧
    emittedOps [(([] : Path), [(⟨"a", none⟩ : Record)]), (["a"], [])]
      [(([] : Path), [(⟨"a", none⟩ : Record)]), (["a"], [])]
      (fun p => decide (p = ["a"])) = some [] :=
  ⟨by decide,
    C7_snapshot_reconcile_idempotent _ _ _ (by decide) (by decide) (by decide)⟩

end S10
